import Mathlib

/-!
# Verification of the line-alignment engine (`src/python/diff/align.py`)

A shallow embedding of the alignment core of the `jiff` diff tool, faithful
to the Python source, together with theorems settling the frozen claims
about it.

Conventions of the embedding:
* Python `math.inf` / integer relaxed distances are modelled as `WithTop Int`
  (`⊤ + w = ⊤` and the order on `WithTop` match IEEE `inf` arithmetic and
  comparisons on the values the program produces).
* Python list indexing that can raise `IndexError` on the inputs reachable in
  the algorithm is modelled with explicit bounds checks returning
  `Option`; a raised exception is `none`.
* The `while` loop of `walk_path` is modelled with fuel
  `line_matrix_x_len * line_matrix_y_len`: a predecessor chain that revisits a
  node loops forever in Python and exhausts the fuel here; an acyclic chain
  has fewer nodes than the fuel, so the model and the program succeed on
  exactly the same states.
-/

/-- A grid coordinate, mirroring the Python `Point` class. -/
structure Point where
  x : Nat
  y : Nat
deriving DecidableEq

/-- The origin `(0,0)`: the implicit source node and the default
`relax_parent` installed by `AlignmentNode.__init__`. -/
def origin : Point := ⟨0, 0⟩

/-- Pointwise update of a function on points (one mutation of a node field). -/
def updatePt {α : Type} (f : Point → α) (p : Point) (v : α) : Point → α :=
  fun q => if q = p then v else f q

/-- The mutable per-node solver state of the matrix: the `relax_weight` and
`relax_parent` fields of every `AlignmentNode`. -/
structure MatrixState where
  dist : Point → WithTop Int
  parent : Point → Point

/-- Node state as `AlignmentNode.__init__` leaves it: `relax_weight = math.inf`
and `relax_parent = Point(0, 0)` everywhere. -/
def initState : MatrixState := ⟨fun _ => ⊤, fun _ => origin⟩

/-- Modelled from the spec: the external character-level diff primitive
(`difflib.ndiff`, outside `src/`, a collaborator per §1/§6 of the spec).
Only the first character of each emitted delta line is inspected by the
program, so the model returns exactly those marker characters:
`' '` for an equal character, `'-'` for a deletion, `'+'` for an insertion,
partitioning both inputs.  Hint lines (`'?'`) are not modelled.  On the
concrete inputs used below (strings without common characters) any diff
satisfying the §6 contract emits exactly these markers. -/
def ndMarks : List Char → List Char → List Char
  | [], a => a.map fun _ => '+'
  | _ :: b, [] => '-' :: ndMarks b []
  | x :: b, y :: a => if x = y then ' ' :: ndMarks b a else '-' :: ndMarks b (y :: a)

/-- The count `D` of the spec's substitution-cost formula: all emitted tokens
that are not "equal". -/
def ndTokensNotEqual (b a : List Char) : Nat :=
  ((ndMarks b a).filter (fun c => c ≠ ' ')).length

/-- The count `K` of the spec's substitution-cost formula: tokens that are
strictly insertion-or-deletion. -/
def ndInsDel (b a : List Char) : Nat :=
  ((ndMarks b a).filter (fun c => c = '+' ∨ c = '-')).length

/-- The substitution weight computed by `AlignmentMatrix.__init__` for a pair
of aligned lines, traced faithfully from the Python:

    changeset = difflib.ndiff(line_b, line_a)
    edit_dist = sum(1 for _ in changeset if _[0] != ' ')
    operations = sum(1 for _ in changeset if _[0] in ['+', '-'])
    weight = edit_dist * ((operations + 1) // 2)

`difflib.ndiff` returns a single-use generator.  The first `sum` consumes it
entirely, so the second generator expression iterates an exhausted iterator
and `operations` is always `0`; the model keeps both passes, the second over
the exhausted (empty) remainder. -/
def subWeight (line_b line_a : String) : Int :=
  let changeset := ndMarks line_b.data line_a.data
  let edit_dist : Int := (changeset.filter (fun c => c ≠ ' ')).length
  let operations : Int := (([] : List Char).filter (fun c => c = '+' ∨ c = '-')).length
  edit_dist * ((operations + 1) / 2)

/-- The static part of the Python `AlignmentMatrix`: the two line sequences.
Matrix dimensions and node weights are derived functions of these. -/
structure AlignmentMatrix where
  lines_b : List String
  lines_a : List String

namespace AlignmentMatrix

/-- `self.line_matrix_x_len = lines_b_len * 2 + 1`. -/
def xlen (M : AlignmentMatrix) : Nat := M.lines_b.length * 2 + 1

/-- `self.line_matrix_y_len = lines_a_len * 2 + 1`. -/
def ylen (M : AlignmentMatrix) : Nat := M.lines_a.length * 2 + 1

/-- The intrinsic `weight` of the node at `(x, y)`, as fixed by
`AlignmentMatrix.__init__`: `-1` placeholders on fully-even coordinates,
the unalignment (gap) scores `len(line)` on half-aligned coordinates, and
the substitution weight on fully-odd coordinates. -/
def weight (M : AlignmentMatrix) (p : Point) : Int :=
  if p.x % 2 = 0 ∧ p.y % 2 = 0 then -1
  else if p.x % 2 = 1 ∧ p.y % 2 = 0 then ((M.lines_b.getD (p.x / 2) "").length : Int)
  else if p.x % 2 = 0 ∧ p.y % 2 = 1 then ((M.lines_a.getD (p.y / 2) "").length : Int)
  else subWeight (M.lines_b.getD (p.x / 2) "") (M.lines_a.getD (p.y / 2) "")

end AlignmentMatrix

/-- `AlignmentMatrix.root_adjacency`: the nodes accessible from the implicit
source node, in the order the Python returns them. -/
def root_adjacency : List Point := [⟨0, 1⟩, ⟨1, 0⟩, ⟨1, 1⟩]

/-- `AlignmentMatrix.adjacency`: the (up to three) nodes reachable after the
move at `node`, in the order the Python appends them. -/
def AlignmentMatrix.adjacency (M : AlignmentMatrix) (p : Point) : List Point :=
  let next_x := p.x + p.x % 2
  let next_y := p.y + p.y % 2
  let next_x_aligned := next_x + 1
  let next_y_aligned := next_y + 1
  (if next_x_aligned < M.xlen then [⟨next_x_aligned, next_y⟩] else []) ++
    (if next_y_aligned < M.ylen then [⟨next_x, next_y_aligned⟩] else []) ++
    (if next_x_aligned < M.xlen ∧ next_y_aligned < M.ylen then
      [⟨next_x_aligned, next_y_aligned⟩] else [])

/-- The root-initialization loop at the head of `shortest_path`:

    for adj in self.root_adjacency():
        vertex = self.line_matrix[adj.x][adj.y]
        vertex.relax_weight = 0

Each iteration indexes `line_matrix[adj.x][adj.y]`; an index outside the
matrix raises `IndexError` (`none`).  Note the assignment stores `0`, not the
vertex's own weight. -/
def initRoots (M : AlignmentMatrix) (st : MatrixState) : Option MatrixState :=
  root_adjacency.foldlM
    (fun s adj =>
      if adj.x < M.xlen ∧ adj.y < M.ylen then
        some { s with dist := updatePt s.dist adj 0 }
      else none)
    st

/-- `AlignmentNode.relax`, acting on the node `c` with intrinsic weight `w`:

    candidate_weight = predecessor_weight + self.weight
    if self.relax_weight > candidate_weight:
        self.relax_weight = candidate_weight
        self.relax_parent = predecessor_id
-/
def relax (st : MatrixState) (c : Point) (predecessor_id : Point)
    (predecessor_weight : WithTop Int) (w : Int) : MatrixState :=
  let candidate_weight := predecessor_weight + (w : WithTop Int)
  if candidate_weight < st.dist c then
    { dist := updatePt st.dist c candidate_weight
      parent := updatePt st.parent c predecessor_id }
  else st

/-- One iteration of the sweep body of `shortest_path`: read the vertex's
relaxed weight once, then relax every adjacent node from it. -/
def visitNode (M : AlignmentMatrix) (st : MatrixState) (p : Point) : MatrixState :=
  let vertex_weight := st.dist p
  (M.adjacency p).foldl (fun s c => relax s c p vertex_weight (M.weight c)) st

/-- The iteration order of the sweep: row-major over the doubled grid,
skipping the fully-even placeholder coordinates (`if (x | y) % 2 == 0:
continue`). -/
def sweepSources (M : AlignmentMatrix) : List Point :=
  (List.range M.xlen).flatMap fun x =>
    (List.range M.ylen).filterMap fun y =>
      if (x ||| y) % 2 = 0 then none else some ⟨x, y⟩

/-- The full topological sweep of `shortest_path`. -/
def sweep (M : AlignmentMatrix) (st : MatrixState) : MatrixState :=
  (sweepSources M).foldl (visitNode M) st

/-- `AlignmentMatrix.walk_path`'s loop, with fuel (see the module comment):

    while pos.id.x > 0 or pos.id.y > 0:
        path.append(pos.id)
        next_pos = self.line_matrix[pos.id.x][pos.id.y].relax_parent
        pos = self.line_matrix[next_pos.x][next_pos.y]

The collected list is terminal-first, exactly as Python builds `path`. -/
def walkAux (st : MatrixState) : Nat → Point → Option (List Point)
  | 0, pos => if pos.x > 0 ∨ pos.y > 0 then none else some []
  | fuel + 1, pos =>
    if pos.x > 0 ∨ pos.y > 0 then
      (walkAux st fuel (st.parent pos)).map (pos :: ·)
    else some []

/-- `AlignmentMatrix.walk_path`: collect the predecessor chain and reverse it. -/
def walk_path (st : MatrixState) (fuel : Nat) (pos : Point) : Option (List Point) :=
  (walkAux st fuel pos).map List.reverse

/-- The three legal exit points of `shortest_path`, by move kind. -/
inductive ExitKind where
  | delLast
  | insLast
  | subLast
deriving DecidableEq

/-- The exit selection at the end of `shortest_path`:

    if exit_x.relax_weight < exit_y.relax_weight and exit_x.relax_weight < exit_xy.relax_weight:
        return self.walk_path(exit_x)
    elif exit_y.relax_weight < exit_xy.relax_weight:
        return self.walk_path(exit_y)
    else:
        return self.walk_path(exit_xy)

(`exit_x` is the delete-last node, `exit_y` the insert-last node, `exit_xy`
the substitute-last node.) -/
def chooseExit (dx dy dxy : WithTop Int) : ExitKind :=
  if dx < dy ∧ dx < dxy then .delLast
  else if dy < dxy then .insLast
  else .subLast

/-- `AlignmentMatrix.shortest_path`: initialize the root adjacency, sweep all
nodes in topological order, pick the best of the three exits and walk its
parents backwards. -/
def AlignmentMatrix.shortest_path (M : AlignmentMatrix) : Option (List Point) := do
  let st0 ← initRoots M initState
  let st := sweep M st0
  let exit_xy : Point := ⟨M.xlen - 2, M.ylen - 2⟩
  let exit_x : Point := ⟨M.xlen - 2, M.ylen - 1⟩
  let exit_y : Point := ⟨M.xlen - 1, M.ylen - 2⟩
  let exitP :=
    match chooseExit (st.dist exit_x) (st.dist exit_y) (st.dist exit_xy) with
    | .delLast => exit_x
    | .insLast => exit_y
    | .subLast => exit_xy
  walk_path st (M.xlen * M.ylen) exitP

/-- The top-level `align` function:

    matrix = AlignmentMatrix(lines_b, lines_a)
    path = matrix.shortest_path()
    for point in path:
        before = lines_b[point.x // 2] if point.x % 2 else None
        after  = lines_a[point.y // 2] if point.y % 2 else None
        alignment.append((before, after))

List indexing is modelled with `[·]?` (a raise is `none`). -/
def align (lines_b lines_a : List String) :
    Option (List (Option String × Option String)) := do
  let M : AlignmentMatrix := ⟨lines_b, lines_a⟩
  let path ← M.shortest_path
  path.mapM fun p => do
    let before ← if p.x % 2 = 1 then (lines_b[p.x / 2]?).map some else some none
    let after ← if p.y % 2 = 1 then (lines_a[p.y / 2]?).map some else some none
    some (before, after)

/-! ## Claim-facing derived definitions -/

/-- The before-line indices consumed along a path, in path order: one entry
per delete or substitute move. -/
def idxB (path : List Point) : List Nat :=
  (path.filter (fun p => p.x % 2 == 1)).map (fun p => p.x / 2)

/-- The after-line indices consumed along a path, in path order. -/
def idxA (path : List Point) : List Nat :=
  (path.filter (fun p => p.y % 2 == 1)).map (fun p => p.y / 2)

/-- The output pair produced by `align` for a path point (the loop body of
`align`, once its list accesses are known to be in bounds). -/
def pairFn (lines_b lines_a : List String) (p : Point) :
    Option String × Option String :=
  (if p.x % 2 = 1 then some (lines_b.getD (p.x / 2) "") else none,
    if p.y % 2 = 1 then some (lines_a.getD (p.y / 2) "") else none)

/-- The cost the spec assigns to one output pair: the gap cost (character
length) for a one-sided pair, the program's substitution weight for a
both-present pair. -/
def pairCost : Option String × Option String → Int
  | (some s, none) => s.length
  | (none, some t) => t.length
  | (some s, some t) => subWeight s t
  | (none, none) => 0

/-- The total cost of an alignment as a sum of its pairs' costs. -/
def alignmentCost (pairs : List (Option String × Option String)) : Int :=
  (pairs.map pairCost).sum

/-- The fully-unaligned baseline: every line of both sides as a standalone
gap. -/
def unalignedCost (lines_b lines_a : List String) : Int :=
  (lines_b.map (fun s => (s.length : Int))).sum +
    (lines_a.map (fun s => (s.length : Int))).sum

/-! ## Structural predicates and helpers for the proofs -/

/-- A materialized (odd-involved) node of the matrix: in bounds and not a
fully-even placeholder. -/
def Ok (M : AlignmentMatrix) (p : Point) : Prop :=
  p.x < M.xlen ∧ p.y < M.ylen ∧ ¬(p.x % 2 = 0 ∧ p.y % 2 = 0)

/-- Consumption count encoded by a doubled-grid coordinate: `(x+1)/2` lines
consumed after the move at axis value `x` (both parities). -/
def g (x : Nat) : Nat := (x + 1) / 2

/-- Row-major (lexicographic) order on points: the iteration order of the
sweep. -/
def ptLex (p q : Point) : Prop := p.x < q.x ∨ (p.x = q.x ∧ p.y < q.y)

lemma subWeight_eq_zero (b a : String) : subWeight b a = 0 := by
  simp [subWeight]

lemma lor_mod_two_eq_zero {x y : Nat} :
    (x ||| y) % 2 = 0 ↔ (x % 2 = 0 ∧ y % 2 = 0) := by
  have h := Nat.testBit_lor x y 0
  simp only [Nat.testBit_zero] at h
  rcases Nat.mod_two_eq_zero_or_one x with hx | hx <;>
    rcases Nat.mod_two_eq_zero_or_one y with hy | hy <;>
    rcases Nat.mod_two_eq_zero_or_one (x ||| y) with hxy | hxy <;>
    simp [hx, hy, hxy] at h ⊢

lemma xlen_eq (M : AlignmentMatrix) : M.xlen = M.lines_b.length * 2 + 1 := rfl

lemma ylen_eq (M : AlignmentMatrix) : M.ylen = M.lines_a.length * 2 + 1 := rfl

lemma mem_sweepSources {M : AlignmentMatrix} {p : Point} :
    p ∈ sweepSources M ↔ Ok M p := by
  simp only [sweepSources, List.mem_flatMap, List.mem_filterMap, List.mem_range]
  constructor
  · rintro ⟨x, hx, y, hy, hpt⟩
    by_cases hpar : (x ||| y) % 2 = 0
    · simp [hpar] at hpt
    · simp [hpar] at hpt
      rcases hpt with ⟨rfl, rfl⟩
      exact ⟨hx, hy, by simpa [lor_mod_two_eq_zero] using hpar⟩
  · rintro ⟨h1, h2, h3⟩
    refine ⟨p.x, h1, p.y, h2, ?_⟩
    have : ¬((p.x ||| p.y) % 2 = 0) := by simpa [lor_mod_two_eq_zero] using h3
    simp [this]

/-- Normal form of adjacency membership. -/
lemma mem_adjacency {M : AlignmentMatrix} {p c : Point} :
    c ∈ M.adjacency p ↔
      ((c = ⟨p.x + p.x % 2 + 1, p.y + p.y % 2⟩ ∧ p.x + p.x % 2 + 1 < M.xlen) ∨
        (c = ⟨p.x + p.x % 2, p.y + p.y % 2 + 1⟩ ∧ p.y + p.y % 2 + 1 < M.ylen) ∨
        (c = ⟨p.x + p.x % 2 + 1, p.y + p.y % 2 + 1⟩ ∧
          p.x + p.x % 2 + 1 < M.xlen ∧ p.y + p.y % 2 + 1 < M.ylen)) := by
  simp only [AlignmentMatrix.adjacency, List.mem_append]
  constructor
  · rintro ((h | h) | h) <;> split_ifs at h <;> simp_all <;> tauto
  · rintro (⟨rfl, h⟩ | ⟨rfl, h⟩ | ⟨rfl, h1, h2⟩) <;> simp_all

/-- The combined structural consequences of one adjacency step used by the
walk and coverage proofs. -/
lemma adj_facts {M : AlignmentMatrix} {p c : Point} (hp : Ok M p)
    (hc : c ∈ M.adjacency p) :
    Ok M c ∧ p.x ≤ c.x ∧ p.y ≤ c.y ∧ p.x + p.y < c.x + c.y ∧
      g c.x = g p.x + c.x % 2 ∧ g c.y = g p.y + c.y % 2 ∧
      (c.x % 2 = 1 → c.x / 2 = g p.x) ∧ (c.y % 2 = 1 → c.y / 2 = g p.y) := by
  obtain ⟨hpx, hpy, -⟩ := hp
  have hX : M.xlen % 2 = 1 := by simp [xlen_eq]; omega
  have hY : M.ylen % 2 = 1 := by simp [ylen_eq]; omega
  rcases mem_adjacency.mp hc with ⟨rfl, h⟩ | ⟨rfl, h⟩ | ⟨rfl, h1, h2⟩ <;>
    refine ⟨⟨?_, ?_, ?_⟩, ?_, ?_, ?_, ?_, ?_, ?_, ?_⟩ <;>
    simp only [Ok, g] <;> omega

lemma adjacency_bounds {M : AlignmentMatrix} {p c : Point} (hp : Ok M p)
    (hc : c ∈ M.adjacency p) : Ok M c := (adj_facts hp hc).1

/-- A node is never in its own adjacency (no self-relaxation). -/
lemma not_self_mem_adjacency {M : AlignmentMatrix} {p : Point} (hp : Ok M p) :
    p ∉ M.adjacency p := by
  intro h
  have := (adj_facts hp h).2.2.2.1
  omega

/-! ## State evolution lemmas -/

lemma updatePt_same {α : Type} (f : Point → α) (p : Point) (v : α) :
    updatePt f p v p = v := by simp [updatePt]

lemma updatePt_other {α : Type} (f : Point → α) {p q : Point} (v : α)
    (h : q ≠ p) : updatePt f p v q = f q := by simp [updatePt, h]

lemma relax_dist_le (st : MatrixState) (c pid : Point) (pw : WithTop Int)
    (w : Int) (q : Point) : (relax st c pid pw w).dist q ≤ st.dist q := by
  by_cases h : pw + (w : WithTop Int) < st.dist c
  · by_cases hq : q = c
    · subst hq; simp only [relax, if_pos h, updatePt_same]; exact le_of_lt h
    · simp only [relax, if_pos h, updatePt_other _ _ hq]; exact le_rfl
  · simp only [relax, if_neg h]; exact le_rfl

lemma relax_dist_ne {st : MatrixState} {c pid : Point} {pw : WithTop Int}
    {w : Int} {q : Point} (h : q ≠ c) :
    (relax st c pid pw w).dist q = st.dist q := by
  by_cases hlt : pw + (w : WithTop Int) < st.dist c
  · simp only [relax, if_pos hlt, updatePt_other _ _ h]
  · simp only [relax, if_neg hlt]

lemma relax_parent_ne {st : MatrixState} {c pid : Point} {pw : WithTop Int}
    {w : Int} {q : Point} (h : q ≠ c) :
    (relax st c pid pw w).parent q = st.parent q := by
  by_cases hlt : pw + (w : WithTop Int) < st.dist c
  · simp only [relax, if_pos hlt, updatePt_other _ _ h]
  · simp only [relax, if_neg hlt]

lemma visitNode_dist_le (M : AlignmentMatrix) (st : MatrixState) (p q : Point) :
    (visitNode M st p).dist q ≤ st.dist q := by
  unfold visitNode
  generalize M.adjacency p = l
  generalize st.dist p = vw
  induction l generalizing st with
  | nil => exact le_rfl
  | cons c cs ih =>
    simp only [List.foldl_cons]
    exact le_trans (ih (relax st c p vw (M.weight c))) (relax_dist_le _ _ _ _ _ _)

lemma foldl_visit_dist_le (M : AlignmentMatrix) (l : List Point)
    (st : MatrixState) (q : Point) :
    (l.foldl (visitNode M) st).dist q ≤ st.dist q := by
  induction l generalizing st with
  | nil => exact le_rfl
  | cons p ps ih =>
    simp only [List.foldl_cons]
    exact le_trans (ih (visitNode M st p)) (visitNode_dist_le _ _ _ _)

lemma sweep_dist_le (M : AlignmentMatrix) (st : MatrixState) (q : Point) :
    (sweep M st).dist q ≤ st.dist q := foldl_visit_dist_le M _ st q

lemma dist_ne_top_mono {d1 d2 : WithTop Int} (hle : d1 ≤ d2) (h : d2 ≠ ⊤) :
    d1 ≠ ⊤ := by
  intro h1
  exact h (top_le_iff.mp (h1 ▸ hle))

/-! ## Root initialization -/

/-- For nonempty inputs, the root initialization succeeds and produces the
explicit state: distance `0` at the three root nodes, `⊤` elsewhere, all
parents still at the origin. -/
lemma initRoots_eq {M : AlignmentMatrix} (hb : M.lines_b ≠ [])
    (ha : M.lines_a ≠ []) :
    initRoots M initState =
      some ⟨fun q => if q ∈ root_adjacency then 0 else ⊤, fun _ => origin⟩ := by
  have hb1 : 1 ≤ M.lines_b.length := List.length_pos.mpr hb
  have ha1 : 1 ≤ M.lines_a.length := List.length_pos.mpr ha
  have hX : 3 ≤ M.xlen := by simp only [AlignmentMatrix.xlen]; omega
  have hY : 3 ≤ M.ylen := by simp only [AlignmentMatrix.ylen]; omega
  simp only [initRoots, root_adjacency, List.foldlM, initState]
  have c1 : ((0 : Nat) < M.xlen ∧ (1 : Nat) < M.ylen) := by omega
  have c2 : ((1 : Nat) < M.xlen ∧ (0 : Nat) < M.ylen) := by omega
  have c3 : ((1 : Nat) < M.xlen ∧ (1 : Nat) < M.ylen) := by omega
  simp only [c1, c2, c3, if_pos, and_self, Option.bind_some, List.foldlM]
  refine congrArg some ?_
  refine congrArg₂ MatrixState.mk ?_ rfl
  funext q
  by_cases h1 : q = (⟨0, 1⟩ : Point) <;> by_cases h2 : q = (⟨1, 0⟩ : Point) <;>
    by_cases h3 : q = (⟨1, 1⟩ : Point) <;>
    simp_all [updatePt, List.mem_cons]

/-- When one side is empty, the root-initialization loop raises an
`IndexError`: the first out-of-bounds root access fails. -/
lemma initRoots_none {M : AlignmentMatrix}
    (h : M.lines_b = [] ∨ M.lines_a = []) :
    initRoots M initState = none := by
  rcases h with h | h
  · have hX : M.xlen = 1 := by simp [AlignmentMatrix.xlen, h]
    simp only [initRoots, root_adjacency, List.foldlM, hX]
    by_cases hY : (1 : Nat) < M.ylen
    · simp [hY]
    · simp [hY]
  · have hY : M.ylen = 1 := by simp [AlignmentMatrix.ylen, h]
    simp only [initRoots, root_adjacency, List.foldlM, hY]
    simp

/-! ## The soundness invariant of parents -/

/-- Every node with a finite relaxed distance is either a root (with the
origin as parent) or has a genuine predecessor: a materialized node whose
adjacency contains it and whose own distance is finite. -/
def Sound (M : AlignmentMatrix) (st : MatrixState) : Prop :=
  ∀ c, st.dist c ≠ ⊤ →
    (c ∈ root_adjacency ∧ st.parent c = origin) ∨
      ∃ p, Ok M p ∧ c ∈ M.adjacency p ∧ st.parent c = p ∧ st.dist p ≠ ⊤

lemma sound_relax {M : AlignmentMatrix} {st : MatrixState} {p c0 : Point}
    {vw : WithTop Int} (hsound : Sound M st) (hp : Ok M p)
    (hc0 : c0 ∈ M.adjacency p) (hvw : st.dist p = vw) :
    Sound M (relax st c0 p vw (M.weight c0)) ∧
      (relax st c0 p vw (M.weight c0)).dist p = vw := by
  have hpc0 : p ≠ c0 := by
    intro h
    exact not_self_mem_adjacency hp (h ▸ hc0)
  constructor
  · intro c hcfin
    by_cases hlt : vw + (M.weight c0 : WithTop Int) < st.dist c0
    · by_cases hc : c = c0
      · right
        refine ⟨p, hp, by rw [hc]; exact hc0, ?_, ?_⟩
        · rw [hc]; simp only [relax, if_pos hlt, updatePt_same]
        · rw [relax_dist_ne hpc0, hvw]
          have hne : vw + (M.weight c0 : WithTop Int) ≠ ⊤ :=
            ne_top_of_lt (lt_of_lt_of_le hlt le_top)
          exact (WithTop.add_ne_top.mp hne).1
      · have hdist : (relax st c0 p vw (M.weight c0)).dist c = st.dist c :=
          relax_dist_ne hc
        have hpar : (relax st c0 p vw (M.weight c0)).parent c = st.parent c :=
          relax_parent_ne hc
        rcases hsound c (hdist ▸ hcfin) with ⟨hroot, hpar0⟩ | ⟨q, hq, hadj, hqpar, hqfin⟩
        · exact Or.inl ⟨hroot, hpar ▸ hpar0⟩
        · right
          refine ⟨q, hq, hadj, hpar ▸ hqpar, ?_⟩
          by_cases hqc0 : q = c0
          · subst hqc0
            simp only [relax, if_pos hlt, updatePt_same]
            exact ne_top_of_lt (lt_of_lt_of_le hlt le_top)
          · rw [relax_dist_ne hqc0]; exact hqfin
    · have heq : relax st c0 p vw (M.weight c0) = st := by
        simp only [relax, if_neg hlt]
      rw [heq] at hcfin ⊢
      exact hsound c hcfin
  · exact (relax_dist_ne hpc0).trans hvw

/-- Visiting a node preserves soundness and keeps the visited node's own
distance unchanged. -/
lemma sound_visit {M : AlignmentMatrix} {st : MatrixState} {p : Point}
    (hsound : Sound M st) (hp : Ok M p) :
    Sound M (visitNode M st p) ∧ (visitNode M st p).dist p = st.dist p := by
  have key : ∀ (l : List Point) (st' : MatrixState),
      (∀ c ∈ l, c ∈ M.adjacency p) → Sound M st' →
      st'.dist p = st.dist p →
      Sound M (l.foldl (fun s c => relax s c p (st.dist p) (M.weight c)) st') ∧
        (l.foldl (fun s c => relax s c p (st.dist p) (M.weight c)) st').dist p =
          st.dist p := by
    intro l
    induction l with
    | nil => intro st' _ h2 h3; exact ⟨h2, h3⟩
    | cons c cs ih =>
      intro st' h1 h2 h3
      have hc : c ∈ M.adjacency p := h1 c (List.mem_cons_self _ _)
      have step := sound_relax h2 hp hc h3
      simp only [List.foldl_cons]
      exact ih _ (fun c' hc' => h1 c' (List.mem_cons_of_mem _ hc')) step.1 step.2
  exact key _ st (fun _ h => h) hsound rfl

lemma foldl_relax_dist_le (M : AlignmentMatrix) (p : Point) (vw : WithTop Int)
    (l : List Point) (st : MatrixState) (q : Point) :
    (l.foldl (fun s c => relax s c p vw (M.weight c)) st).dist q ≤ st.dist q := by
  induction l generalizing st with
  | nil => exact le_rfl
  | cons c cs ih =>
    simp only [List.foldl_cons]
    exact le_trans (ih (relax st c p vw (M.weight c))) (relax_dist_le _ _ _ _ _ _)

/-- If the visited node has a finite distance, every node in its adjacency
is finite afterwards. -/
lemma visit_reaches {M : AlignmentMatrix} {st : MatrixState} {p c0 : Point}
    (hp : Ok M p) (hfin : st.dist p ≠ ⊤) (hc0 : c0 ∈ M.adjacency p) :
    (visitNode M st p).dist c0 ≠ ⊤ := by
  have key : ∀ (l : List Point) (st' : MatrixState), c0 ∈ l →
      (l.foldl (fun s c => relax s c p (st.dist p) (M.weight c)) st').dist c0 ≠ ⊤ := by
    intro l
    induction l with
    | nil => intro st' h; exact absurd h (List.not_mem_nil _)
    | cons c cs ih =>
      intro st' hmem
      simp only [List.foldl_cons]
      rcases List.mem_cons.mp hmem with rfl | hmem'
      · have hfin2 : (relax st' c0 p (st.dist p) (M.weight c0)).dist c0 ≠ ⊤ := by
          have hcand : st.dist p + (M.weight c0 : WithTop Int) ≠ ⊤ :=
            WithTop.add_ne_top.mpr ⟨hfin, WithTop.coe_ne_top⟩
          by_cases hlt : st.dist p + (M.weight c0 : WithTop Int) < st'.dist c0
          · simp only [relax, if_pos hlt, updatePt_same]
            exact hcand
          · simp only [relax, if_neg hlt]
            rw [not_lt] at hlt
            exact dist_ne_top_mono hlt hcand
        exact dist_ne_top_mono (foldl_relax_dist_le M p (st.dist p) cs _ c0) hfin2
      · exact ih _ hmem'
  exact key _ st hc0


/-! ## Reachability of every materialized node -/

/-- A canonical predecessor for every materialized non-root node: a
materialized node, strictly earlier in row-major order, whose adjacency
contains the node. -/
def canonPred (c : Point) : Point :=
  if c.x % 2 = 1 then
    if c.y % 2 = 1 then
      if c.x = 1 then ⟨0, c.y - 2⟩
      else if c.y = 1 then ⟨c.x - 2, 0⟩
      else ⟨c.x - 2, c.y - 2⟩
    else
      if c.y = 0 then ⟨c.x - 2, 0⟩ else ⟨c.x - 1, c.y - 1⟩
  else
    if c.x = 0 then ⟨0, c.y - 2⟩ else ⟨c.x - 1, c.y - 1⟩

lemma canonPred_spec {M : AlignmentMatrix} {c : Point} (hc : Ok M c)
    (hroot : c ∉ root_adjacency) :
    Ok M (canonPred c) ∧ c ∈ M.adjacency (canonPred c) ∧ ptLex (canonPred c) c := by
  have hX : M.xlen % 2 = 1 := by simp [xlen_eq]; omega
  have hY : M.ylen % 2 = 1 := by simp [ylen_eq]; omega
  obtain ⟨cx, cy⟩ := c
  obtain ⟨hx, hy, hpar⟩ := hc
  simp only at hx hy hpar
  have hne : ¬(cx = 0 ∧ cy = 1) ∧ ¬(cx = 1 ∧ cy = 0) ∧ ¬(cx = 1 ∧ cy = 1) := by
    simp only [root_adjacency, List.mem_cons, List.not_mem_nil, or_false,
      Point.mk.injEq, not_or] at hroot
    exact hroot
  obtain ⟨h1, h2, h3⟩ := hne
  rcases Nat.mod_two_eq_zero_or_one cx with hcx | hcx <;>
    rcases Nat.mod_two_eq_zero_or_one cy with hcy | hcy
  · exact absurd ⟨hcx, hcy⟩ hpar
  · -- cx even, cy odd
    by_cases hc0 : cx = 0
    · subst hc0
      have hy3 : 3 ≤ cy := by omega
      have hcp : canonPred ⟨0, cy⟩ = ⟨0, cy - 2⟩ := by
        simp [canonPred]
      rw [hcp, mem_adjacency]
      refine ⟨⟨by dsimp only; omega, by dsimp only; omega, ?_⟩, ?_, ?_⟩
      · dsimp only; omega
      · refine Or.inr (Or.inl ⟨?_, ?_⟩)
        · rw [Point.mk.injEq]; dsimp only; omega
        · dsimp only; omega
      · simp only [ptLex, true_and, and_true]; omega
    · have hcp : canonPred ⟨cx, cy⟩ = ⟨cx - 1, cy - 1⟩ := by
        simp [canonPred, hcx, hc0]
      rw [hcp, mem_adjacency]
      refine ⟨⟨by dsimp only; omega, by dsimp only; omega, ?_⟩, ?_, ?_⟩
      · dsimp only; omega
      · refine Or.inr (Or.inl ⟨?_, ?_⟩)
        · rw [Point.mk.injEq]; dsimp only; omega
        · dsimp only; omega
      · simp only [ptLex, true_and, and_true]; omega
  · -- cx odd, cy even
    by_cases hc0 : cy = 0
    · subst hc0
      have hx3 : 3 ≤ cx := by omega
      have hcp : canonPred ⟨cx, 0⟩ = ⟨cx - 2, 0⟩ := by
        simp [canonPred, hcx]
      rw [hcp, mem_adjacency]
      refine ⟨⟨by dsimp only; omega, by dsimp only; omega, ?_⟩, ?_, ?_⟩
      · dsimp only; omega
      · refine Or.inl ⟨?_, ?_⟩
        · rw [Point.mk.injEq]; dsimp only; omega
        · dsimp only; omega
      · simp only [ptLex, true_and, and_true]; omega
    · have hcp : canonPred ⟨cx, cy⟩ = ⟨cx - 1, cy - 1⟩ := by
        simp [canonPred, hcx, hcy, hc0]
      rw [hcp, mem_adjacency]
      refine ⟨⟨by dsimp only; omega, by dsimp only; omega, ?_⟩, ?_, ?_⟩
      · dsimp only; omega
      · refine Or.inl ⟨?_, ?_⟩
        · rw [Point.mk.injEq]; dsimp only; omega
        · dsimp only; omega
      · simp only [ptLex, true_and, and_true]; omega
  · -- both odd
    by_cases hcx1 : cx = 1
    · subst hcx1
      have hy3 : 3 ≤ cy := by omega
      have hcp : canonPred ⟨1, cy⟩ = ⟨0, cy - 2⟩ := by
        simp [canonPred, hcy]
      rw [hcp, mem_adjacency]
      refine ⟨⟨by dsimp only; omega, by dsimp only; omega, ?_⟩, ?_, ?_⟩
      · dsimp only; omega
      · refine Or.inr (Or.inr ⟨?_, ?_, ?_⟩)
        · rw [Point.mk.injEq]; dsimp only; omega
        · dsimp only; omega
        · dsimp only; omega
      · simp only [ptLex, true_and, and_true]; omega
    · by_cases hcy1 : cy = 1
      · subst hcy1
        have hx3 : 3 ≤ cx := by omega
        have hcp : canonPred ⟨cx, 1⟩ = ⟨cx - 2, 0⟩ := by
          simp [canonPred, hcx, hcx1]
        rw [hcp, mem_adjacency]
        refine ⟨⟨by dsimp only; omega, by dsimp only; omega, ?_⟩, ?_, ?_⟩
        · dsimp only; omega
        · refine Or.inr (Or.inr ⟨?_, ?_, ?_⟩)
          · rw [Point.mk.injEq]; dsimp only; omega
          · dsimp only; omega
          · dsimp only; omega
        · simp only [ptLex, true_and, and_true]; omega
      · have hx3 : 3 ≤ cx := by omega
        have hy3 : 3 ≤ cy := by omega
        have hcp : canonPred ⟨cx, cy⟩ = ⟨cx - 2, cy - 2⟩ := by
          simp [canonPred, hcx, hcy, hcx1, hcy1]
        rw [hcp, mem_adjacency]
        refine ⟨⟨by dsimp only; omega, by dsimp only; omega, ?_⟩, ?_, ?_⟩
        · dsimp only; omega
        · refine Or.inr (Or.inr ⟨?_, ?_, ?_⟩)
          · rw [Point.mk.injEq]; dsimp only; omega
          · dsimp only; omega
          · dsimp only; omega
        · simp only [ptLex, true_and, and_true]; omega

lemma pairwise_flatMap_of {α β : Type} {R : β → β → Prop} (l : List α)
    (f : α → List β) (h1 : ∀ x ∈ l, (f x).Pairwise R)
    (h2 : l.Pairwise fun x y => ∀ a ∈ f x, ∀ b ∈ f y, R a b) :
    (l.flatMap f).Pairwise R := by
  induction l with
  | nil => simp
  | cons x xs ih =>
    rw [List.flatMap_cons, List.pairwise_append]
    rcases List.pairwise_cons.mp h2 with ⟨hx, hxs⟩
    refine ⟨h1 x (List.mem_cons_self _ _), ih (fun z hz => h1 z (List.mem_cons_of_mem _ hz)) hxs, ?_⟩
    intro a ha b hb
    rcases List.mem_flatMap.mp hb with ⟨y, hy, hby⟩
    exact hx y hy a ha b hby

lemma pairwise_filterMap_of {α β : Type} {R : β → β → Prop} (l : List α)
    (f : α → Option β)
    (h : l.Pairwise fun x y => ∀ a ∈ f x, ∀ b ∈ f y, R a b) :
    (l.filterMap f).Pairwise R := by
  induction l with
  | nil => simp
  | cons x xs ih =>
    rcases List.pairwise_cons.mp h with ⟨hx, hxs⟩
    rw [List.filterMap_cons]
    cases hfx : f x with
    | none => exact ih hxs
    | some b =>
      rw [List.pairwise_cons]
      refine ⟨?_, ih hxs⟩
      intro a ha
      rcases List.mem_filterMap.mp ha with ⟨y, hy, hay⟩
      exact hx y hy b (by rw [hfx]; exact rfl) a hay

lemma pairwise_sweepSources (M : AlignmentMatrix) :
    (sweepSources M).Pairwise ptLex := by
  unfold sweepSources
  apply pairwise_flatMap_of
  · intro x _
    apply pairwise_filterMap_of
    have : (List.range M.ylen).Pairwise (· < ·) := List.pairwise_lt_range _
    refine this.imp_of_mem ?_
    intro y1 y2 _ _ hy a ha b hb
    split_ifs at ha hb <;> simp_all [ptLex] <;> (cases ha; cases hb; dsimp only; omega)
  · have : (List.range M.xlen).Pairwise (· < ·) := List.pairwise_lt_range _
    refine this.imp_of_mem ?_
    intro x1 x2 _ _ hx a ha b hb
    simp only [List.mem_filterMap, List.mem_range] at ha hb
    rcases ha with ⟨y1, _, ha⟩
    rcases hb with ⟨y2, _, hb⟩
    split_ifs at ha hb <;> simp_all [ptLex] <;> (cases ha; cases hb; dsimp only; omega)

/-- If the sweep list splits as `done ++ p :: todo`, everything
row-major-smaller than `p` in the list lies in `done`. -/
lemma mem_done_of_lex {M : AlignmentMatrix} {done todo : List Point} {p q : Point}
    (hsplit : sweepSources M = done ++ p :: todo) (hq : q ∈ sweepSources M)
    (hlex : ptLex q p) : q ∈ done := by
  have hpw := pairwise_sweepSources M
  rw [hsplit] at hpw hq
  rcases List.mem_append.mp hq with h | h
  · exact h
  · exfalso
    rcases List.pairwise_append.mp hpw with ⟨-, hpt, -⟩
    rcases List.mem_cons.mp h with rfl | h'
    · simp only [ptLex] at hlex; omega
    · have := (List.pairwise_cons.mp hpt).1 q h'
      simp only [ptLex] at hlex this; omega

/-- The reach invariant for a processed prefix of the sweep: every
materialized node that is a root, or whose canonical predecessor has been
processed, already has a finite distance. -/
def ReachInv (M : AlignmentMatrix) (st : MatrixState) (processed : List Point) : Prop :=
  ∀ c, Ok M c → (c ∈ root_adjacency ∨ canonPred c ∈ processed) → st.dist c ≠ ⊤

/-- Main induction along the sweep: processing the remaining sources extends
the reach invariant over them and preserves soundness. -/
lemma sweep_step_invariant (M : AlignmentMatrix) :
    ∀ (todo done : List Point) (st : MatrixState),
      sweepSources M = done ++ todo →
      ReachInv M st done → Sound M st →
      ReachInv M (todo.foldl (visitNode M) st) (done ++ todo) ∧
        Sound M (todo.foldl (visitNode M) st) := by
  intro todo
  induction todo with
  | nil =>
    intro done st hsplit hreach hsound
    simpa using ⟨hreach, hsound⟩
  | cons p todo' ih =>
    intro done st hsplit hreach hsound
    have hpOk : Ok M p := by
      rw [mem_sweepSources.symm, hsplit]
      exact List.mem_append.mpr (Or.inr (List.mem_cons_self _ _))
    have hpfin : st.dist p ≠ ⊤ := by
      by_cases hr : p ∈ root_adjacency
      · exact hreach p hpOk (Or.inl hr)
      · have hcp := canonPred_spec hpOk hr
        have hcpm : canonPred p ∈ sweepSources M := mem_sweepSources.mpr hcp.1
        have hdone : canonPred p ∈ done := mem_done_of_lex hsplit hcpm hcp.2.2
        exact hreach p hpOk (Or.inr hdone)
    have hsound2 := sound_visit hsound hpOk
    have hreach2 : ReachInv M (visitNode M st p) (done ++ [p]) := by
      intro c hcOk hcc
      rcases hcc with hcr | hcdone
      · exact dist_ne_top_mono (visitNode_dist_le M st p c)
          (hreach c hcOk (Or.inl hcr))
      · rcases List.mem_append.mp hcdone with hcd | hcp'
        · exact dist_ne_top_mono (visitNode_dist_le M st p c)
            (hreach c hcOk (Or.inr hcd))
        · have hcp'' : canonPred c = p := by simpa using hcp'
          have hcr : c ∉ root_adjacency ∨ c ∈ root_adjacency := (em _).symm
          rcases hcr with hnr | hr
          · have hspec := canonPred_spec hcOk hnr
            exact visit_reaches hpOk hpfin (hcp'' ▸ hspec.2.1)
          · exact dist_ne_top_mono (visitNode_dist_le M st p c)
              (hreach c hcOk (Or.inl hr))
    have hsplit2 : sweepSources M = (done ++ [p]) ++ todo' := by
      rw [hsplit, List.append_assoc]; rfl
    have := ih (done ++ [p]) (visitNode M st p) hsplit2 hreach2 hsound2.1
    rw [List.append_assoc] at this
    simpa using this

/-- After the full sweep from the initialized state, every materialized node
has a finite distance, and parents are sound. -/
lemma sweep_final {M : AlignmentMatrix} (hb : M.lines_b ≠ []) (ha : M.lines_a ≠ [])
    {st0 : MatrixState} (h0 : initRoots M initState = some st0) :
    (∀ c, Ok M c → (sweep M st0).dist c ≠ ⊤) ∧ Sound M (sweep M st0) := by
  have hst0 : st0 = ⟨fun q => if q ∈ root_adjacency then 0 else ⊤, fun _ => origin⟩ := by
    have := initRoots_eq hb ha
    rw [h0] at this
    exact Option.some.inj this
  have hreach0 : ReachInv M st0 [] := by
    intro c hcOk hcc
    rcases hcc with hcr | hcd
    · rw [hst0]; simp [hcr]
    · exact absurd hcd (List.not_mem_nil _)
  have hsound0 : Sound M st0 := by
    intro c hfin
    left
    rw [hst0] at hfin ⊢
    simp only at hfin ⊢
    by_cases hc : c ∈ root_adjacency
    · simp [hc]
    · simp [hc] at hfin
  have hmain := sweep_step_invariant M (sweepSources M) [] st0 rfl hreach0 hsound0
  refine ⟨?_, hmain.2⟩
  intro c hcOk
  apply hmain.1 c hcOk
  simp only [List.nil_append]
  by_cases hr : c ∈ root_adjacency
  · exact Or.inl hr
  · exact Or.inr (mem_sweepSources.mpr (canonPred_spec hcOk hr).1)

lemma walkAux_origin (st : MatrixState) : ∀ fuel, walkAux st fuel origin = some [] := by
  intro fuel
  cases fuel <;> simp [walkAux, origin]

/-- The backward walk from a reached materialized node succeeds and collects,
terminal first, a strictly descending chain whose delete/substitute moves
consume exactly the before-lines below the node's consumption count, and
likewise on the after side. -/
lemma walkAux_spec {M : AlignmentMatrix} {st : MatrixState} (hsound : Sound M st) :
    ∀ (fuel : Nat) (c : Point), Ok M c → st.dist c ≠ ⊤ → c.x + c.y < fuel →
      ∃ L, walkAux st fuel c = some L ∧
        L.head? = some c ∧
        (∀ q ∈ L, Ok M q ∧ q.x ≤ c.x ∧ q.y ≤ c.y) ∧
        L.Chain' (fun q r => r.x ≤ q.x ∧ r.y ≤ q.y ∧ r.x + r.y < q.x + q.y) ∧
        (L.filter (fun p => p.x % 2 == 1)).map (fun p => p.x / 2) =
          (List.range (g c.x)).reverse ∧
        (L.filter (fun p => p.y % 2 == 1)).map (fun p => p.y / 2) =
          (List.range (g c.y)).reverse := by
  intro fuel
  induction fuel with
  | zero => intro c _ _ h; omega
  | succ fuel ih =>
    intro c hcOk hcfin hfuel
    have hpos : c.x > 0 ∨ c.y > 0 := by
      obtain ⟨-, -, hpar⟩ := hcOk
      omega
    rcases hsound c hcfin with ⟨hroot, hpar⟩ | ⟨p, hpOk, hadj, hpar, hpfin⟩
    · -- root: single-step path
      refine ⟨[c], ?_, rfl, ?_, ?_, ?_, ?_⟩
      · simp [walkAux, hpos, hpar, walkAux_origin]
      · intro q hq
        rcases List.mem_singleton.mp hq with rfl
        exact ⟨hcOk, le_rfl, le_rfl⟩
      · simp
      · simp only [root_adjacency, List.mem_cons, List.not_mem_nil, or_false] at hroot
        rcases hroot with rfl | rfl | rfl <;> decide
      · simp only [root_adjacency, List.mem_cons, List.not_mem_nil, or_false] at hroot
        rcases hroot with rfl | rfl | rfl <;> decide
    · -- proper predecessor: recurse
      obtain ⟨hpOk', hxle, hyle, hsum, hgx, hgy, hix, hiy⟩ := adj_facts hpOk hadj
      obtain ⟨L', hL', hhead', hmem', hchain', hbf', haf'⟩ :=
        ih p hpOk hpfin (by omega)
      refine ⟨c :: L', ?_, rfl, ?_, ?_, ?_, ?_⟩
      · simp [walkAux, hpos, hpar, hL']
      · intro q hq
        rcases List.mem_cons.mp hq with rfl | hq'
        · exact ⟨hcOk, le_rfl, le_rfl⟩
        · obtain ⟨h1, h2, h3⟩ := hmem' q hq'
          exact ⟨h1, le_trans h2 hxle, le_trans h3 hyle⟩
      · rw [List.chain'_cons']
        refine ⟨?_, hchain'⟩
        intro y hy
        rw [hhead'] at hy
        rcases Option.some.inj hy with rfl
        exact ⟨hxle, hyle, hsum⟩
      · rw [List.filter_cons]
        rcases Nat.mod_two_eq_zero_or_one c.x with hcx | hcx
        · rw [if_neg (by simp [hcx]), hbf']
          have hg : g c.x = g p.x := by omega
          rw [hg]
        · rw [if_pos (by simp [hcx]), List.map_cons, hbf', hix hcx]
          have hg : g c.x = g p.x + 1 := by omega
          rw [hg, List.range_succ, List.reverse_append]
          simp
      · rw [List.filter_cons]
        rcases Nat.mod_two_eq_zero_or_one c.y with hcy | hcy
        · rw [if_neg (by simp [hcy]), haf']
          have hg : g c.y = g p.y := by omega
          rw [hg]
        · rw [if_pos (by simp [hcy]), List.map_cons, haf', hiy hcy]
          have hg : g c.y = g p.y + 1 := by omega
          rw [hg, List.range_succ, List.reverse_append]
          simp

/-- Master structure theorem for `shortest_path` on nonempty inputs: the walk
succeeds, visits only materialized nodes in a strictly ascending chain, and
its delete/substitute (resp. insert/substitute) moves consume exactly the
before-indices `0..m-1` (resp. after-indices `0..n-1`), in order. -/
lemma shortest_path_master (lines_b lines_a : List String)
    (hb : lines_b ≠ []) (ha : lines_a ≠ []) :
    ∃ path, (AlignmentMatrix.mk lines_b lines_a).shortest_path = some path ∧
      idxB path = List.range lines_b.length ∧
      idxA path = List.range lines_a.length ∧
      (∀ p ∈ path, Ok (AlignmentMatrix.mk lines_b lines_a) p) ∧
      path.Chain' (fun p q => p.x ≤ q.x ∧ p.y ≤ q.y ∧ p.x + p.y < q.x + q.y) := by
  set M : AlignmentMatrix := AlignmentMatrix.mk lines_b lines_a with hM
  have hm : 1 ≤ M.lines_b.length := List.length_pos.mpr hb
  have hn : 1 ≤ M.lines_a.length := List.length_pos.mpr ha
  have hX : M.xlen = M.lines_b.length * 2 + 1 := rfl
  have hY : M.ylen = M.lines_a.length * 2 + 1 := rfl
  have hbl : M.lines_b.length = lines_b.length := rfl
  have hal : M.lines_a.length = lines_a.length := rfl
  obtain ⟨st0, h0⟩ : ∃ st0, initRoots M initState = some st0 :=
    ⟨_, initRoots_eq hb ha⟩
  obtain ⟨hreach, hsound⟩ := sweep_final hb ha h0
  set st := sweep M st0 with hst
  set exit_xy : Point := ⟨M.xlen - 2, M.ylen - 2⟩ with hexy
  set exit_x : Point := ⟨M.xlen - 2, M.ylen - 1⟩ with hex
  set exit_y : Point := ⟨M.xlen - 1, M.ylen - 2⟩ with hey
  set T : Point :=
    (match chooseExit (st.dist exit_x) (st.dist exit_y) (st.dist exit_xy) with
      | .delLast => exit_x
      | .insLast => exit_y
      | .subLast => exit_xy) with hT
  have hTcases : T = exit_x ∨ T = exit_y ∨ T = exit_xy := by
    rw [hT]
    cases chooseExit (st.dist exit_x) (st.dist exit_y) (st.dist exit_xy) <;> simp
  have hTfacts : Ok M T ∧ g T.x = M.lines_b.length ∧ g T.y = M.lines_a.length ∧
      T.x + T.y < M.xlen * M.ylen := by
    have hprod : M.xlen * M.ylen =
        4 * (M.lines_b.length * M.lines_a.length) + 2 * M.lines_b.length +
          2 * M.lines_a.length + 1 := by
      rw [hX, hY]; ring
    rcases hTcases with hTe | hTe | hTe <;> rw [hTe] <;>
      refine ⟨⟨?_, ?_, ?_⟩, ?_, ?_, ?_⟩ <;>
      simp only [hexy, hex, hey, g] <;> omega
  obtain ⟨hTok, hTgx, hTgy, hTlt⟩ := hTfacts
  obtain ⟨L, hL, -, hmem, hchain, hbf, haf⟩ :=
    walkAux_spec hsound (M.xlen * M.ylen) T hTok (hreach T hTok) hTlt
  refine ⟨L.reverse, ?_, ?_, ?_, ?_, ?_⟩
  · show M.shortest_path = some L.reverse
    rw [AlignmentMatrix.shortest_path, h0]
    simp only [Option.bind_eq_bind, Option.some_bind]
    rw [← hst, ← hexy, ← hex, ← hey, ← hT, walk_path, hL]
    rfl
  · rw [idxB, List.filter_reverse, List.map_reverse, hbf, List.reverse_reverse, hTgx]
  · rw [idxA, List.filter_reverse, List.map_reverse, haf, List.reverse_reverse, hTgy]
  · intro p hp
    exact (hmem p (List.mem_reverse.mp hp)).1
  · rw [List.chain'_reverse]
    refine hchain.imp ?_
    intro a b hab
    exact ⟨hab.1, hab.2.1, hab.2.2⟩

lemma align_extract_eq {lines_b lines_a : List String} {p : Point}
    (hbx : p.x % 2 = 1 → p.x / 2 < lines_b.length)
    (hay : p.y % 2 = 1 → p.y / 2 < lines_a.length) :
    (do
      let before ← if p.x % 2 = 1 then (lines_b[p.x / 2]?).map some else some none
      let after ← if p.y % 2 = 1 then (lines_a[p.y / 2]?).map some else some none
      some (before, after) : Option (Option String × Option String)) =
      some (pairFn lines_b lines_a p) := by
  rcases Nat.mod_two_eq_zero_or_one p.x with hpx | hpx <;>
    rcases Nat.mod_two_eq_zero_or_one p.y with hpy | hpy <;>
    simp only [pairFn, hpx, hpy]
  · simp
  · have h := hay hpy
    simp [List.getElem?_eq_getElem h]
  · have h := hbx hpx
    simp [List.getElem?_eq_getElem h]
  · have h1 := hbx hpx
    have h2 := hay hpy
    simp [List.getElem?_eq_getElem h1, List.getElem?_eq_getElem h2]

lemma align_mapM_eq (lines_b lines_a : List String) (path : List Point)
    (h : ∀ p ∈ path, (p.x % 2 = 1 → p.x / 2 < lines_b.length) ∧
      (p.y % 2 = 1 → p.y / 2 < lines_a.length)) :
    (path.mapM fun p => do
      let before ← if p.x % 2 = 1 then (lines_b[p.x / 2]?).map some else some none
      let after ← if p.y % 2 = 1 then (lines_a[p.y / 2]?).map some else some none
      some (before, after)) = some (path.map (pairFn lines_b lines_a)) := by
  induction path with
  | nil => rfl
  | cons p ps ih =>
    rw [List.mapM_cons]
    have hp := h p (List.mem_cons_self _ _)
    rw [align_extract_eq hp.1 hp.2, ih (fun q hq => h q (List.mem_cons_of_mem _ hq))]
    rfl

/-! ## Cost accounting -/

lemma sum_map_add_split {α : Type} (l : List α) (f g2 : α → Int) :
    (l.map (fun x => f x + g2 x)).sum = (l.map f).sum + (l.map g2).sum := by
  induction l with
  | nil => simp
  | cons x xs ih => simp [ih]; ring

lemma sum_map_ite_eq_sum_filter {α : Type} (l : List α) (q : α → Bool)
    (f : α → Int) :
    (l.map (fun x => if q x = true then f x else 0)).sum =
      ((l.filter q).map f).sum := by
  induction l with
  | nil => simp
  | cons x xs ih =>
    rw [List.map_cons, List.sum_cons, List.filter_cons]
    by_cases hq : q x = true
    · rw [if_pos hq, if_pos hq, List.map_cons, List.sum_cons, ih]
    · rw [if_neg hq, if_neg hq, ih, zero_add]

lemma sum_range_getD_len (l : List String) :
    ((List.range l.length).map (fun i => ((l.getD i "").length : Int))).sum =
      (l.map (fun s => (s.length : Int))).sum := by
  induction l with
  | nil => simp
  | cons s ss ih =>
    rw [List.length_cons, List.range_succ_eq_map, List.map_cons, List.sum_cons,
      List.map_map, List.map_cons, List.sum_cons]
    congr 1

/-- The per-pair cost of a path point is bounded by the sum of the two
one-sided length charges. -/
lemma pairCost_le (lines_b lines_a : List String) (p : Point) :
    pairCost (pairFn lines_b lines_a p) ≤
      (if (p.x % 2 == 1) = true then ((lines_b.getD (p.x / 2) "").length : Int) else 0) +
        (if (p.y % 2 == 1) = true then ((lines_a.getD (p.y / 2) "").length : Int) else 0) := by
  rcases Nat.mod_two_eq_zero_or_one p.x with hpx | hpx <;>
    rcases Nat.mod_two_eq_zero_or_one p.y with hpy | hpy <;>
    simp only [pairFn, pairCost, hpx, hpy] <;> simp [subWeight_eq_zero] <;> positivity

/-- The total cost of the pairs decoded from a path is at most the sum of
all line lengths below the consumption counts the path covers. -/
lemma alignmentCost_le_of_idx (lines_b lines_a : List String) (path : List Point)
    (hbidx : idxB path = List.range lines_b.length)
    (haidx : idxA path = List.range lines_a.length) :
    alignmentCost (path.map (pairFn lines_b lines_a)) ≤
      unalignedCost lines_b lines_a := by
  rw [alignmentCost, List.map_map]
  have hle : (path.map (pairCost ∘ pairFn lines_b lines_a)).sum ≤
      (path.map (fun p =>
        (if (p.x % 2 == 1) = true then ((lines_b.getD (p.x / 2) "").length : Int) else 0) +
          (if (p.y % 2 == 1) = true then ((lines_a.getD (p.y / 2) "").length : Int) else 0))).sum := by
    apply List.sum_le_sum
    intro p _
    exact pairCost_le lines_b lines_a p
  refine le_trans hle ?_
  rw [sum_map_add_split, sum_map_ite_eq_sum_filter, sum_map_ite_eq_sum_filter]
  have hB : ((path.filter (fun p => p.x % 2 == 1)).map
      (fun p => ((lines_b.getD (p.x / 2) "").length : Int))).sum =
      (lines_b.map (fun s => (s.length : Int))).sum := by
    have : ((path.filter (fun p => p.x % 2 == 1)).map
        (fun p => ((lines_b.getD (p.x / 2) "").length : Int))) =
        (idxB path).map (fun i => ((lines_b.getD i "").length : Int)) := by
      rw [idxB, List.map_map]
      rfl
    rw [this, hbidx, sum_range_getD_len]
  have hA : ((path.filter (fun p => p.y % 2 == 1)).map
      (fun p => ((lines_a.getD (p.y / 2) "").length : Int))).sum =
      (lines_a.map (fun s => (s.length : Int))).sum := by
    have : ((path.filter (fun p => p.y % 2 == 1)).map
        (fun p => ((lines_a.getD (p.y / 2) "").length : Int))) =
        (idxA path).map (fun i => ((lines_a.getD i "").length : Int)) := by
      rw [idxA, List.map_map]
      rfl
    rw [this, haidx, sum_range_getD_len]
  rw [hB, hA, unalignedCost]

/-- Grand master lemma for `align` on inputs with both sides nonempty: the
solver succeeds, the output pairs decode the walked path, the path covers
every before- and after-index exactly once in order, visits only
materialized nodes in a strictly ascending chain, and its total cost is at
most the fully-unaligned baseline. -/
lemma align_master (lines_b lines_a : List String) (hb : lines_b ≠ [])
    (ha : lines_a ≠ []) :
    ∃ path,
      (AlignmentMatrix.mk lines_b lines_a).shortest_path = some path ∧
      align lines_b lines_a = some (path.map (pairFn lines_b lines_a)) ∧
      idxB path = List.range lines_b.length ∧
      idxA path = List.range lines_a.length ∧
      (∀ p ∈ path, ¬(p.x % 2 = 0 ∧ p.y % 2 = 0)) ∧
      path.Chain' (fun p q => p.x ≤ q.x ∧ p.y ≤ q.y ∧ p.x + p.y < q.x + q.y) ∧
      alignmentCost (path.map (pairFn lines_b lines_a)) ≤
        unalignedCost lines_b lines_a := by
  obtain ⟨path, hsp, hbidx, haidx, hok, hchain⟩ :=
    shortest_path_master lines_b lines_a hb ha
  have hbound : ∀ p ∈ path, (p.x % 2 = 1 → p.x / 2 < lines_b.length) ∧
      (p.y % 2 = 1 → p.y / 2 < lines_a.length) := by
    intro p hp
    obtain ⟨h1, h2, -⟩ := hok p hp
    have hX : (AlignmentMatrix.mk lines_b lines_a).xlen = lines_b.length * 2 + 1 := rfl
    have hY : (AlignmentMatrix.mk lines_b lines_a).ylen = lines_a.length * 2 + 1 := rfl
    constructor <;> intro hodd <;> omega
  refine ⟨path, hsp, ?_, hbidx, haidx, ?_, hchain, ?_⟩
  · rw [align]
    simp only [Option.bind_eq_bind]
    rw [hsp, Option.some_bind]
    exact align_mapM_eq lines_b lines_a path hbound
  · intro p hp
    exact (hok p hp).2.2
  · exact alignmentCost_le_of_idx lines_b lines_a path hbidx haidx

/-! ## Exact characterization of the sweep

To settle the input-swap symmetry we compute the solver's final state in
closed form: a pure cell-level dynamic program `cellF` over consumption
counts `(i, j)` gives every materialized node's final relaxed distance via
`nodeVal`, and the final predecessor of every node is the row-major-first
minimizer over its (explicitly listed) predecessors, `pureParent`.  The
sweep is then shown, by one induction along the processing order, to
realize exactly these values. -/

/-- The gap weight of the `i`-th before-line (0-based): the intrinsic
weight of the delete nodes of matrix row `2*i+1`.  Also used for the
after-lines. -/
def wB (l : List String) (i : Nat) : Int := ((l.getD i "").length : Int)

/-- The pure cell-level shortest-distance table: `cellF b a i j` is the
least relaxed distance among the (existing) move nodes that land on
consumption state `(i, j)`.  The base rows mirror the solver's
roots-at-zero initialization: the first delete and the first insert are
free. -/
def cellF (b a : List String) : Nat → Nat → Int
  | 0, 0 => 0
  | i + 1, 0 => if i = 0 then 0 else cellF b a i 0 + wB b i
  | 0, j + 1 => if j = 0 then 0 else cellF b a 0 j + wB a j
  | i + 1, j + 1 =>
    min (cellF b a i j)
      (min (cellF b a i (j + 1) + wB b i) (cellF b a (i + 1) j + wB a j))

/-- The move nodes landing on consumption state `(k, l)`, in row-major
order: substitute `(2k-1, 2l-1)`, delete `(2k-1, 2l)`, insert `(2k, 2l-1)`,
each present only when its consumed count is positive. -/
def cellEntries : Nat → Nat → List Point
  | 0, 0 => []
  | k + 1, 0 => [⟨2 * k + 1, 0⟩]
  | 0, l + 1 => [⟨0, 2 * l + 1⟩]
  | k + 1, l + 1 =>
    [⟨2 * k + 1, 2 * l + 1⟩, ⟨2 * k + 1, 2 * l + 2⟩, ⟨2 * k + 2, 2 * l + 1⟩]

/-- The predecessors of a materialized node, in row-major order: exactly
the existing entries of the cell it moves from, which is `(x/2, y/2)` for
every node class. -/
def predList (c : Point) : List Point := cellEntries (c.x / 2) (c.y / 2)

/-- The intrinsic weight of a materialized node, as a pure function of the
inputs (the substitution weight is identically zero, see `subWeight`). -/
def gapW (b a : List String) (c : Point) : Int :=
  if c.x % 2 = 1 ∧ c.y % 2 = 0 then wB b (c.x / 2)
  else if c.x % 2 = 0 ∧ c.y % 2 = 1 then wB a (c.y / 2) else 0

/-- The final relaxed distance of a materialized node in closed form:
zero at the three roots, otherwise the incoming cell's distance plus the
node's own gap weight. -/
def nodeVal (b a : List String) (c : Point) : Int :=
  if c ∈ root_adjacency then 0
  else cellF b a (c.x / 2) (c.y / 2) + gapW b a c

/-- The first (leftmost) minimizer among `x :: rest`, with its value: the
fixed point of repeated strict-improvement updates in list order, i.e. the
first-writer-wins rule of `relax`. -/
def best1 (x : Point × Int) : List (Point × Int) → Point × Int
  | [] => x
  | y :: rest => if x.2 ≤ (best1 y rest).2 then x else best1 y rest

/-- The final `relax_parent` of every node in closed form: for a
materialized non-root node, the row-major-first predecessor of minimal
candidate distance; the constructor default `origin` everywhere else. -/
def pureParent (b a : List String) (c : Point) : Point :=
  if c.x < b.length * 2 + 1 ∧ c.y < a.length * 2 + 1 ∧
      ¬(c.x % 2 = 0 ∧ c.y % 2 = 0) then
    match (predList c).map (fun p => (p, nodeVal b a p + gapW b a c)) with
    | [] => origin
    | x :: rest => (best1 x rest).1
  else origin

/-- Coordinate swap: the mirror between the matrix of `(b, a)` and the
matrix of `(a, b)`. -/
def swapP (p : Point) : Point := ⟨p.y, p.x⟩

lemma wB_nonneg (l : List String) (i : Nat) : 0 ≤ wB l i := by
  simp [wB]

lemma best1_append_last (x z : Point × Int) (l : List (Point × Int)) :
    best1 x (l ++ [z]) = if (best1 x l).2 ≤ z.2 then best1 x l else z := by
  induction l generalizing x with
  | nil => simp [best1]
  | cons y rest ih =>
    rw [List.cons_append]
    show (if x.2 ≤ (best1 y (rest ++ [z])).2 then x else best1 y (rest ++ [z])) = _
    rw [ih y]
    show _ = if (if x.2 ≤ (best1 y rest).2 then x else best1 y rest).2 ≤ z.2
      then if x.2 ≤ (best1 y rest).2 then x else best1 y rest else z
    by_cases h1 : x.2 ≤ (best1 y rest).2 <;>
      by_cases h2 : (best1 y rest).2 ≤ z.2 <;>
      simp only [h1, h2, if_true, if_false, if_pos, if_neg] <;>
      split_ifs <;> first | rfl | omega

lemma best1_val_three (p1 p2 p3 : Point) (v1 v2 v3 : Int) :
    (best1 (p1, v1) [(p2, v2), (p3, v3)]).2 = min v1 (min v2 v3) := by
  simp only [best1]
  split_ifs <;> simp_all <;> omega

/-! ### The pure cell table: equations, transpose symmetry, monotonicity -/

lemma cellF_base (b a : List String) : cellF b a 0 0 = 0 := by
  simp [cellF]

lemma cellF_row (b a : List String) (k : Nat) :
    cellF b a (k + 1) 0 = if k = 0 then 0 else cellF b a k 0 + wB b k := by
  simp [cellF]

lemma cellF_col (b a : List String) (l : Nat) :
    cellF b a 0 (l + 1) = if l = 0 then 0 else cellF b a 0 l + wB a l := by
  simp [cellF]

lemma cellF_mid (b a : List String) (k l : Nat) :
    cellF b a (k + 1) (l + 1) =
      min (cellF b a k l)
        (min (cellF b a k (l + 1) + wB b k) (cellF b a (k + 1) l + wB a l)) := by
  simp [cellF]

lemma cellF_swap_aux (b a : List String) :
    ∀ n k l, k + l ≤ n → cellF a b l k = cellF b a k l := by
  intro n
  induction n with
  | zero =>
    intro k l h
    have hk : k = 0 := by omega
    have hl : l = 0 := by omega
    subst hk; subst hl
    rw [cellF_base, cellF_base]
  | succ n ih =>
    intro k l h
    rcases k with _ | k <;> rcases l with _ | l
    · rw [cellF_base, cellF_base]
    · rw [cellF_row, cellF_col]
      by_cases hl : l = 0
      · simp [hl]
      · rw [if_neg hl, if_neg hl, ih 0 l (by omega)]
    · rw [cellF_col, cellF_row]
      by_cases hk : k = 0
      · simp [hk]
      · rw [if_neg hk, if_neg hk, ih k 0 (by omega)]
    · rw [cellF_mid, cellF_mid, ih k l (by omega), ih k (l + 1) (by omega),
        ih (k + 1) l (by omega)]
      omega

/-- Transpose symmetry of the pure cell table: the recurrence is fully
symmetric in the two line sequences. -/
lemma cellF_swap (b a : List String) (k l : Nat) :
    cellF a b l k = cellF b a k l :=
  cellF_swap_aux b a (k + l) k l le_rfl

/-- In the wide regime (column index at least the row index), dropping the
last column never increases the cell distance: every lattice path to such
a cell contains a removable insert step. -/
lemma cellF_mono_right (b a : List String) :
    ∀ k l, k ≤ l → cellF b a k l ≤ cellF b a k (l + 1) := by
  intro k
  induction k with
  | zero =>
    intro l _
    rcases l with _ | l
    · rw [cellF_base, cellF_col]
      simp
    · rw [cellF_col b a (l + 1), if_neg (Nat.succ_ne_zero l)]
      have := wB_nonneg a (l + 1)
      omega
  | succ k ih =>
    intro l hkl
    rcases l with _ | l
    · omega
    · rw [cellF_mid b a k (l + 1)]
      refine le_min ?_ (le_min ?_ ?_)
      · have h1 : cellF b a (k + 1) (l + 1) ≤ cellF b a k l := by
          rw [cellF_mid]; exact min_le_left _ _
        have h2 : cellF b a k l ≤ cellF b a k (l + 1) := ih l (by omega)
        omega
      · have h1 : cellF b a (k + 1) (l + 1) ≤ cellF b a k (l + 1) + wB b k := by
          rw [cellF_mid]; exact le_trans (min_le_right _ _) (min_le_left _ _)
        have h2 : cellF b a k (l + 1) ≤ cellF b a k (l + 1 + 1) := ih (l + 1) (by omega)
        omega
      · have := wB_nonneg a (l + 1)
        omega

/-- The transposed regime: dropping the last row in the tall regime. -/
lemma cellF_mono_down (b a : List String) (k l : Nat) (h : l ≤ k) :
    cellF b a k l ≤ cellF b a (k + 1) l := by
  have h1 := cellF_mono_right a b l k h
  rw [cellF_swap] at h1
  rw [← cellF_swap b a (k + 1) l]
  exact h1

/-- No cell's substitute entry can be strictly beaten by both its delete
and its insert sibling: the key exclusion that makes every tie-break
symmetric under swapping the inputs. -/
lemma cellX (b a : List String) (k l : Nat) :
    ¬(cellF b a k (l + 1) + wB b k < cellF b a k l ∧
      cellF b a (k + 1) l + wB a l < cellF b a k l) := by
  rintro ⟨h1, h2⟩
  rcases le_total k l with h | h
  · have h3 := cellF_mono_right b a k l h
    have h4 := wB_nonneg b k
    omega
  · have h3 := cellF_mono_down b a k l h
    have h4 := wB_nonneg a l
    omega

/-! ### Node values and the Bellman evaluation of a predecessor cell -/

lemma nodeVal_S (b a : List String) (k l : Nat) :
    nodeVal b a ⟨2 * k + 1, 2 * l + 1⟩ = cellF b a k l := by
  by_cases h : k = 0 ∧ l = 0
  · obtain ⟨rfl, rfl⟩ := h
    show nodeVal b a ⟨1, 1⟩ = cellF b a 0 0
    simp only [nodeVal]
    rw [if_pos (by decide), cellF_base]
  · have hnr : (⟨2 * k + 1, 2 * l + 1⟩ : Point) ∉ root_adjacency := by
      simp only [root_adjacency, List.mem_cons, List.not_mem_nil, or_false,
        Point.mk.injEq, not_or]
      omega
    simp only [nodeVal, if_neg hnr, gapW]
    rw [if_neg (by omega), if_neg (by omega),
      show (2 * k + 1) / 2 = k by omega, show (2 * l + 1) / 2 = l by omega]
    omega

lemma nodeVal_D (b a : List String) (k l : Nat) :
    nodeVal b a ⟨2 * k + 1, 2 * l + 2⟩ = cellF b a k (l + 1) + wB b k := by
  have hnr : (⟨2 * k + 1, 2 * l + 2⟩ : Point) ∉ root_adjacency := by
    simp only [root_adjacency, List.mem_cons, List.not_mem_nil, or_false,
      Point.mk.injEq, not_or]
    omega
  simp only [nodeVal, if_neg hnr, gapW]
  rw [if_pos ⟨by omega, by omega⟩,
    show (2 * k + 1) / 2 = k by omega, show (2 * l + 2) / 2 = l + 1 by omega]

lemma nodeVal_E (b a : List String) (k l : Nat) :
    nodeVal b a ⟨2 * k + 2, 2 * l + 1⟩ = cellF b a (k + 1) l + wB a l := by
  have hnr : (⟨2 * k + 2, 2 * l + 1⟩ : Point) ∉ root_adjacency := by
    simp only [root_adjacency, List.mem_cons, List.not_mem_nil, or_false,
      Point.mk.injEq, not_or]
    omega
  simp only [nodeVal, if_neg hnr, gapW]
  rw [if_neg (by omega), if_pos ⟨by omega, by omega⟩,
    show (2 * k + 2) / 2 = k + 1 by omega, show (2 * l + 1) / 2 = l by omega]

lemma nodeVal_D0 (b a : List String) (k : Nat) :
    nodeVal b a ⟨2 * k + 1, 0⟩ = cellF b a (k + 1) 0 := by
  by_cases hk : k = 0
  · subst hk
    show nodeVal b a ⟨1, 0⟩ = cellF b a 1 0
    simp only [nodeVal]
    rw [if_pos (by decide), cellF_row, if_pos rfl]
  · have hnr : (⟨2 * k + 1, 0⟩ : Point) ∉ root_adjacency := by
      simp only [root_adjacency, List.mem_cons, List.not_mem_nil, or_false,
        Point.mk.injEq, not_or]
      omega
    simp only [nodeVal, if_neg hnr, gapW]
    rw [if_pos (⟨by omega, trivial⟩ : (2 * k + 1) % 2 = 1 ∧ True),
      show (2 * k + 1) / 2 = k by omega,
      show (0 : Nat) / 2 = 0 from rfl, cellF_row, if_neg hk]

lemma nodeVal_E0 (b a : List String) (l : Nat) :
    nodeVal b a ⟨0, 2 * l + 1⟩ = cellF b a 0 (l + 1) := by
  by_cases hl : l = 0
  · subst hl
    show nodeVal b a ⟨0, 1⟩ = cellF b a 0 1
    simp only [nodeVal]
    rw [if_pos (by decide), cellF_col, if_pos rfl]
  · have hnr : (⟨0, 2 * l + 1⟩ : Point) ∉ root_adjacency := by
      simp only [root_adjacency, List.mem_cons, List.not_mem_nil, or_false,
        Point.mk.injEq, not_or]
      omega
    simp only [nodeVal, if_neg hnr, gapW]
    rw [if_neg (by omega), if_pos (⟨trivial, by omega⟩ : True ∧ (2 * l + 1) % 2 = 1),
      show (0 : Nat) / 2 = 0 from rfl, show (2 * l + 1) / 2 = l by omega,
      cellF_col, if_neg hl]

/-- The intrinsic weight read by the solver agrees with the pure gap
weight on every non-placeholder node (the substitution weight is zero). -/
lemma weight_eq_gapW (M : AlignmentMatrix) (c : Point)
    (h : ¬(c.x % 2 = 0 ∧ c.y % 2 = 0)) :
    M.weight c = gapW M.lines_b M.lines_a c := by
  rcases Nat.mod_two_eq_zero_or_one c.x with hx | hx <;>
    rcases Nat.mod_two_eq_zero_or_one c.y with hy | hy
  · exact absurd ⟨hx, hy⟩ h
  · simp [AlignmentMatrix.weight, gapW, wB, hx, hy]
  · simp [AlignmentMatrix.weight, gapW, wB, hx, hy]
  · simp [AlignmentMatrix.weight, gapW, wB, hx, hy, subWeight_eq_zero]

/-- Evaluating the candidate list of a whole predecessor cell: the list is
nonempty and its least candidate value is the cell distance plus the
common outgoing weight. -/
lemma cellMin (b a : List String) (k l : Nat) (h : ¬(k = 0 ∧ l = 0)) (w : Int) :
    ∃ x rest, (cellEntries k l).map (fun p => (p, nodeVal b a p + w)) = x :: rest ∧
      (best1 x rest).2 = cellF b a k l + w := by
  rcases k with _ | k <;> rcases l with _ | l
  · exact absurd ⟨rfl, rfl⟩ h
  · refine ⟨_, _, rfl, ?_⟩
    show nodeVal b a ⟨0, 2 * l + 1⟩ + w = _
    rw [nodeVal_E0]
  · refine ⟨_, _, rfl, ?_⟩
    show nodeVal b a ⟨2 * k + 1, 0⟩ + w = _
    rw [nodeVal_D0]
  · refine ⟨_, _, rfl, ?_⟩
    simp only [List.map]
    rw [best1_val_three, nodeVal_S, nodeVal_D, nodeVal_E, cellF_mid]
    omega

/-- The Bellman equation of the closed-form distances: at every
materialized non-root node, the least candidate over the full predecessor
list is the node's own closed-form distance. -/
lemma bellman (b a : List String) (c : Point) (hOk : Ok ⟨b, a⟩ c)
    (hnr : c ∉ root_adjacency) :
    ∃ x rest,
      (predList c).map (fun p => (p, nodeVal b a p + gapW b a c)) = x :: rest ∧
      (best1 x rest).2 = nodeVal b a c := by
  have hkl : ¬(c.x / 2 = 0 ∧ c.y / 2 = 0) := by
    obtain ⟨cx, cy⟩ := c
    obtain ⟨h1, h2, h3⟩ := hOk
    simp only [root_adjacency, List.mem_cons, List.not_mem_nil, or_false,
      Point.mk.injEq, not_or] at hnr
    dsimp only at h3 ⊢
    omega
  obtain ⟨x, rest, hmap, hval⟩ := cellMin b a (c.x / 2) (c.y / 2) hkl (gapW b a c)
  refine ⟨x, rest, ?_, ?_⟩
  · simp only [predList]
    exact hmap
  · rw [hval]
    simp only [nodeVal, if_neg hnr]

/-! ### The predecessor list: membership, ordering -/

lemma Ok_mk {M : AlignmentMatrix} {u v : Nat} :
    Ok M ⟨u, v⟩ ↔ (u < M.xlen ∧ v < M.ylen ∧ ¬(u % 2 = 0 ∧ v % 2 = 0)) :=
  Iff.rfl

lemma ptLex_mk {u v u2 v2 : Nat} :
    ptLex ⟨u, v⟩ ⟨u2, v2⟩ ↔ (u < u2 ∨ (u = u2 ∧ v < v2)) :=
  Iff.rfl

lemma ptLex_asymm {p q : Point} (h1 : ptLex p q) (h2 : ptLex q p) : False := by
  simp only [ptLex] at h1 h2
  omega

lemma ptLex_irrefl {p : Point} (h : ptLex p p) : False := by
  simp only [ptLex] at h
  omega

/-- Membership in the predecessor list characterizes genuine predecessors:
materialized nodes whose adjacency contains the node. -/
lemma mem_predList {M : AlignmentMatrix} {c p : Point} (hc : Ok M c) :
    p ∈ predList c ↔ (Ok M p ∧ c ∈ M.adjacency p) := by
  obtain ⟨cx, cy⟩ := c
  rw [Ok_mk] at hc
  obtain ⟨hbx, hby, hpar⟩ := hc
  constructor
  · intro hp
    simp only [predList] at hp
    generalize hK : cx / 2 = K at hp
    generalize hL : cy / 2 = L at hp
    rcases K with _ | k <;> rcases L with _ | l <;>
      simp only [cellEntries, List.mem_cons, List.not_mem_nil, or_false] at hp
    · subst hp
      exact ⟨by rw [Ok_mk]; omega,
        by rw [mem_adjacency]; dsimp only; simp only [Point.mk.injEq, and_true, true_and]; omega⟩
    · subst hp
      exact ⟨by rw [Ok_mk]; omega,
        by rw [mem_adjacency]; dsimp only; simp only [Point.mk.injEq, and_true, true_and]; omega⟩
    · rcases hp with rfl | rfl | rfl <;>
        exact ⟨by rw [Ok_mk]; omega,
          by rw [mem_adjacency]; dsimp only; simp only [Point.mk.injEq, and_true, true_and]; omega⟩
  · rintro ⟨hOkp, hadj⟩
    rw [mem_adjacency] at hadj
    obtain ⟨px, py⟩ := p
    rw [Ok_mk] at hOkp
    obtain ⟨hpx2, hpy2, hppar⟩ := hOkp
    dsimp only at hadj
    simp only [Point.mk.injEq] at hadj
    simp only [predList]
    have hK : cx / 2 = (px + px % 2) / 2 ∧ cy / 2 = (py + py % 2) / 2 := by
      rcases hadj with ⟨⟨e1, e2⟩, _⟩ | ⟨⟨e1, e2⟩, _⟩ | ⟨⟨e1, e2⟩, _, _⟩ <;>
        constructor <;> omega
    rcases Nat.mod_two_eq_zero_or_one px with hqx | hqx <;>
      rcases Nat.mod_two_eq_zero_or_one py with hqy | hqy
    · exact absurd ⟨hqx, hqy⟩ hppar
    · obtain ⟨s, rfl⟩ : ∃ s, px = 2 * s := ⟨px / 2, by omega⟩
      obtain ⟨t, rfl⟩ : ∃ t, py = 2 * t + 1 := ⟨py / 2, by omega⟩
      rw [show cx / 2 = s by omega, show cy / 2 = t + 1 by omega]
      rcases s with _ | s
      · simp [cellEntries]
      · simp only [cellEntries, List.mem_cons, List.not_mem_nil, or_false,
          Point.mk.injEq, and_true, true_and]
        omega
    · obtain ⟨s, rfl⟩ : ∃ s, px = 2 * s + 1 := ⟨px / 2, by omega⟩
      obtain ⟨t, rfl⟩ : ∃ t, py = 2 * t := ⟨py / 2, by omega⟩
      rw [show cx / 2 = s + 1 by omega, show cy / 2 = t by omega]
      rcases t with _ | t
      · simp [cellEntries]
      · simp only [cellEntries, List.mem_cons, List.not_mem_nil, or_false,
          Point.mk.injEq, and_true, true_and]
        omega
    · obtain ⟨s, rfl⟩ : ∃ s, px = 2 * s + 1 := ⟨px / 2, by omega⟩
      obtain ⟨t, rfl⟩ : ∃ t, py = 2 * t + 1 := ⟨py / 2, by omega⟩
      rw [show cx / 2 = s + 1 by omega, show cy / 2 = t + 1 by omega]
      simp only [cellEntries, List.mem_cons, List.not_mem_nil, or_false,
        Point.mk.injEq, and_true, true_and, and_self, true_or, or_true]

/-- Every predecessor precedes its node in row-major order. -/
lemma predList_lex {c p : Point} (hp : p ∈ predList c) : ptLex p c := by
  obtain ⟨cx, cy⟩ := c
  simp only [predList] at hp
  generalize hK : cx / 2 = K at hp
  generalize hL : cy / 2 = L at hp
  rcases K with _ | k <;> rcases L with _ | l <;>
    simp only [cellEntries, List.mem_cons, List.not_mem_nil, or_false] at hp
  · subst hp
    rw [ptLex_mk]
    omega
  · subst hp
    rw [ptLex_mk]
    omega
  · rcases hp with rfl | rfl | rfl <;> (rw [ptLex_mk]; omega)

/-- The predecessor list is row-major sorted. -/
lemma predList_sorted (c : Point) : (predList c).Pairwise ptLex := by
  simp only [predList]
  rcases (c.x / 2) with _ | k <;> rcases (c.y / 2) with _ | l <;>
    simp only [cellEntries]
  · exact List.Pairwise.nil
  · exact List.pairwise_singleton _ _
  · exact List.pairwise_singleton _ _
  · refine List.Pairwise.cons ?_ (List.Pairwise.cons ?_ (List.pairwise_singleton _ _))
    · intro q hq
      rcases List.mem_cons.mp hq with rfl | hq
      · rw [ptLex_mk]; omega
      · rcases List.mem_singleton.mp hq with rfl
        rw [ptLex_mk]; omega
    · intro q hq
      rcases List.mem_singleton.mp hq with rfl
      rw [ptLex_mk]; omega

/-! ### Pointwise effect of one sweep iteration -/

lemma relax_dist_self (st : MatrixState) (c pid : Point) (pw : WithTop Int)
    (w : Int) :
    (relax st c pid pw w).dist c = min (st.dist c) (pw + (w : WithTop Int)) := by
  by_cases h : pw + (w : WithTop Int) < st.dist c
  · simp only [relax, if_pos h, updatePt_same]
    exact (min_eq_right (le_of_lt h)).symm
  · simp only [relax, if_neg h]
    exact (min_eq_left (not_lt.mp h)).symm

lemma relax_parent_self (st : MatrixState) (c pid : Point) (pw : WithTop Int)
    (w : Int) :
    (relax st c pid pw w).parent c =
      if pw + (w : WithTop Int) < st.dist c then pid else st.parent c := by
  by_cases h : pw + (w : WithTop Int) < st.dist c
  · simp only [relax, if_pos h, updatePt_same]
  · simp only [relax, if_neg h]

lemma fold_relax_not_mem (M : AlignmentMatrix) (q : Point) (vw : WithTop Int)
    (c : Point) :
    ∀ (l : List Point) (st : MatrixState), c ∉ l →
      ((l.foldl (fun s c2 => relax s c2 q vw (M.weight c2)) st).dist c = st.dist c ∧
        (l.foldl (fun s c2 => relax s c2 q vw (M.weight c2)) st).parent c =
          st.parent c) := by
  intro l
  induction l with
  | nil => intro st _; exact ⟨rfl, rfl⟩
  | cons d ds ih =>
    intro st hc
    have hcd : c ≠ d := fun h => hc (h ▸ List.mem_cons_self _ _)
    have hcds : c ∉ ds := fun h => hc (List.mem_cons_of_mem _ h)
    rw [List.foldl_cons]
    obtain ⟨h1, h2⟩ := ih _ hcds
    exact ⟨h1.trans (relax_dist_ne hcd), h2.trans (relax_parent_ne hcd)⟩

lemma adjacency_nodup (M : AlignmentMatrix) (p : Point) :
    (M.adjacency p).Nodup := by
  simp only [AlignmentMatrix.adjacency]
  split_ifs <;> simp [Point.mk.injEq] <;> omega

/-- One sweep iteration in closed form: the visited node relaxes exactly
its adjacency, using its own distance read once. -/
lemma visitNode_eq (M : AlignmentMatrix) (st : MatrixState) (q : Point)
    (c : Point) :
    ((visitNode M st q).dist c, (visitNode M st q).parent c) =
      if c ∈ M.adjacency q then
        (min (st.dist c) (st.dist q + (M.weight c : WithTop Int)),
          if st.dist q + (M.weight c : WithTop Int) < st.dist c then q
          else st.parent c)
      else (st.dist c, st.parent c) := by
  have key : ∀ (l : List Point) (st2 : MatrixState), l.Nodup →
      (((l.foldl (fun s c2 => relax s c2 q (st.dist q) (M.weight c2)) st2).dist c,
        (l.foldl (fun s c2 => relax s c2 q (st.dist q) (M.weight c2)) st2).parent c) =
        if c ∈ l then
          (min (st2.dist c) (st.dist q + (M.weight c : WithTop Int)),
            if st.dist q + (M.weight c : WithTop Int) < st2.dist c then q
            else st2.parent c)
        else (st2.dist c, st2.parent c)) := by
    intro l
    induction l with
    | nil =>
      intro st2 _
      rw [if_neg (List.not_mem_nil c)]
      exact Prod.mk.injEq .. ▸ rfl
    | cons d ds ih =>
      intro st2 hnd
      rw [List.foldl_cons]
      have hdds : d ∉ ds := (List.nodup_cons.mp hnd).1
      have hds : ds.Nodup := (List.nodup_cons.mp hnd).2
      by_cases hcd : c = d
      · subst hcd
        rw [if_pos (List.mem_cons_self _ _)]
        obtain ⟨h1, h2⟩ := fold_relax_not_mem M q (st.dist q) c ds _ hdds
        rw [h1, h2, relax_dist_self, relax_parent_self]
      · rw [ih _ hds]
        by_cases hmem : c ∈ ds
        · rw [if_pos hmem, if_pos (List.mem_cons_of_mem _ hmem),
            relax_dist_ne hcd, relax_parent_ne hcd]
        · rw [if_neg hmem,
            if_neg (fun h => (List.mem_cons.mp h).elim (fun h2 => hcd h2) hmem),
            relax_dist_ne hcd, relax_parent_ne hcd]
  exact key (M.adjacency q) st (adjacency_nodup M q)

/-! ### The sweep characterization invariant -/

/-- The candidate pairs of node `c` contributed by the processed prefix
`done` of the sweep, in processing order. -/
def ppairs (b a : List String) (c : Point) (done : List Point) :
    List (Point × Int) :=
  ((predList c).filter (· ∈ done)).map fun p => (p, nodeVal b a p + gapW b a c)

/-- The exact state of the solver after processing `done`: every
materialized node holds the value and first minimizer of its processed
candidates (roots start at zero, untouched nodes at infinity), and
non-materialized nodes are untouched. -/
def CharInv (M : AlignmentMatrix) (st : MatrixState) (done : List Point) : Prop :=
  (∀ c, Ok M c →
    st.dist c =
      (match ppairs M.lines_b M.lines_a c done with
        | [] => if c ∈ root_adjacency then (0 : WithTop Int) else ⊤
        | x :: rest => ((best1 x rest).2 : WithTop Int)) ∧
    st.parent c =
      (match ppairs M.lines_b M.lines_a c done with
        | [] => origin
        | x :: rest => (best1 x rest).1)) ∧
  (∀ c, ¬Ok M c → st.dist c = ⊤ ∧ st.parent c = origin)

lemma predList_root {c : Point} (hc : c ∈ root_adjacency) : predList c = [] := by
  simp only [root_adjacency, List.mem_cons, List.not_mem_nil, or_false] at hc
  rcases hc with rfl | rfl | rfl <;> rfl

lemma filter_append_last_not_mem {l done : List Point} {q : Point}
    (hql : q ∉ l) :
    l.filter (· ∈ done ++ [q]) = l.filter (· ∈ done) := by
  apply List.filter_congr
  intro e he
  have heq : e ≠ q := fun h => hql (h ▸ he)
  simp [List.mem_append, heq]

lemma filter_append_last_mem {l done : List Point} {q : Point}
    (hsort : l.Pairwise ptLex) (hdone : ∀ e ∈ done, ptLex e q) (hql : q ∈ l) :
    l.filter (· ∈ done ++ [q]) = l.filter (· ∈ done) ++ [q] := by
  induction l with
  | nil => exact absurd hql (List.not_mem_nil _)
  | cons e rest ih =>
    obtain ⟨he, hrest⟩ := List.pairwise_cons.mp hsort
    by_cases heq : e = q
    · subst heq
      have hq_not_done : e ∉ done := fun h => ptLex_irrefl (hdone e h)
      have hrest_none : ∀ r ∈ rest, r ∉ done ∧ r ≠ e := by
        intro r hr
        constructor
        · intro hrd
          exact ptLex_asymm (he r hr) (hdone r hrd)
        · intro hre
          exact ptLex_irrefl (hre ▸ he r hr)
      rw [List.filter_cons, List.filter_cons]
      rw [if_pos (by simp), if_neg (by simp [hq_not_done])]
      have h1 : rest.filter (· ∈ done ++ [e]) = [] := by
        rw [List.filter_eq_nil_iff]
        intro r hr
        obtain ⟨h2, h3⟩ := hrest_none r hr
        simp [List.mem_append, h2, h3]
      have h2 : rest.filter (· ∈ done) = [] := by
        rw [List.filter_eq_nil_iff]
        intro r hr
        simp [(hrest_none r hr).1]
      rw [h1, h2]
      rfl
    · have hqrest : q ∈ rest := by
        rcases List.mem_cons.mp hql with h | h
        · exact absurd h.symm heq
        · exact h
      rw [List.filter_cons, List.filter_cons]
      by_cases hed : e ∈ done
      · rw [if_pos (by simp [List.mem_append, hed]), if_pos (by simp [hed]),
          ih hrest hqrest]
        rfl
      · rw [if_neg (by simp [List.mem_append, hed, heq]),
          if_neg (by simp [hed]), ih hrest hqrest]

/-- When a node comes up for processing, all its predecessors are already
processed, so its current distance is its final closed-form value. -/
lemma charInv_at_visit {M : AlignmentMatrix} {st : MatrixState}
    {done todo : List Point} {q : Point}
    (hsplit : sweepSources M = done ++ q :: todo)
    (hinv : CharInv M st done) (hqOk : Ok M q) :
    st.dist q = ((nodeVal M.lines_b M.lines_a q : Int) : WithTop Int) := by
  have hfull : (predList q).filter (· ∈ done) = predList q := by
    rw [List.filter_eq_self]
    intro p hp
    have hOkp := ((mem_predList hqOk).mp hp).1
    have hlex := predList_lex hp
    have hmem : p ∈ done :=
      mem_done_of_lex hsplit (mem_sweepSources.mpr hOkp) hlex
    simp [hmem]
  obtain ⟨hd, -⟩ := hinv.1 q hqOk
  rw [hd]
  by_cases hroot : q ∈ root_adjacency
  · rw [show ppairs M.lines_b M.lines_a q done = [] by
      simp [ppairs, predList_root hroot]]
    show (if q ∈ root_adjacency then (0 : WithTop Int) else ⊤) = _
    rw [if_pos hroot]
    simp [nodeVal, hroot]
  · obtain ⟨x, rest, hmap, hval⟩ := bellman M.lines_b M.lines_a q hqOk hroot
    rw [show ppairs M.lines_b M.lines_a q done = x :: rest by
      rw [ppairs, hfull]; exact hmap]
    show ((best1 x rest).2 : WithTop Int) = _
    rw [hval]

/-- Main induction along the sweep: the exact characterization extends
over the remaining sources. -/
lemma char_step (M : AlignmentMatrix) :
    ∀ (todo done : List Point) (st : MatrixState),
      sweepSources M = done ++ todo →
      CharInv M st done →
      CharInv M (todo.foldl (visitNode M) st) (done ++ todo) := by
  intro todo
  induction todo with
  | nil =>
    intro done st hsplit hinv
    simpa using hinv
  | cons q todo2 ih =>
    intro done st hsplit hinv
    have hqOk : Ok M q := by
      rw [← mem_sweepSources (M := M), hsplit]
      exact List.mem_append.mpr (Or.inr (List.mem_cons_self _ _))
    have hvw : st.dist q = ((nodeVal M.lines_b M.lines_a q : Int) : WithTop Int) :=
      charInv_at_visit hsplit hinv hqOk
    have hdone_lex : ∀ e ∈ done, ptLex e q := by
      have hpw := pairwise_sweepSources M
      rw [hsplit] at hpw
      obtain ⟨-, -, hcross⟩ := List.pairwise_append.mp hpw
      exact fun e he => hcross e he q (List.mem_cons_self _ _)
    have hinv2 : CharInv M (visitNode M st q) (done ++ [q]) := by
      constructor
      · intro c hcOk
        have hpair := visitNode_eq M st q c
        by_cases hadj : c ∈ M.adjacency q
        · have hqp : q ∈ predList c := (mem_predList hcOk).mpr ⟨hqOk, hadj⟩
          have hw : M.weight c = gapW M.lines_b M.lines_a c :=
            weight_eq_gapW M c hcOk.2.2
          have hpp : ppairs M.lines_b M.lines_a c (done ++ [q]) =
              ppairs M.lines_b M.lines_a c done ++
                [(q, nodeVal M.lines_b M.lines_a q +
                    gapW M.lines_b M.lines_a c)] := by
            rw [ppairs, ppairs,
              filter_append_last_mem (predList_sorted c) hdone_lex hqp,
              List.map_append]
            rfl
          rw [if_pos hadj, Prod.mk.injEq] at hpair
          obtain ⟨hdist, hpar⟩ := hpair
          obtain ⟨hd, hp2⟩ := hinv.1 c hcOk
          rw [hpp]
          cases hold : ppairs M.lines_b M.lines_a c done with
          | nil =>
            rw [hold] at hd hp2
            have hcnr : c ∉ root_adjacency := by
              intro hr
              rw [predList_root hr] at hqp
              exact List.not_mem_nil _ hqp
            have hd2 : st.dist c =
                (if c ∈ root_adjacency then (0 : WithTop Int) else ⊤) := hd
            have hp3 : st.parent c = origin := hp2
            rw [if_neg hcnr] at hd2
            constructor
            · show (visitNode M st q).dist c =
                ((nodeVal M.lines_b M.lines_a q +
                  gapW M.lines_b M.lines_a c : Int) : WithTop Int)
              rw [hdist, hd2, hvw, hw, ← WithTop.coe_add]
              exact min_eq_right le_top
            · show (visitNode M st q).parent c = q
              rw [hpar, hd2, hvw, hw, ← WithTop.coe_add,
                if_pos (WithTop.coe_lt_top _)]
          | cons x rest =>
            rw [hold] at hd hp2
            have hd2 : st.dist c = ((best1 x rest).2 : WithTop Int) := hd
            have hp3 : st.parent c = (best1 x rest).1 := hp2
            constructor
            · show (visitNode M st q).dist c =
                ((best1 x (rest ++ [(q, nodeVal M.lines_b M.lines_a q +
                  gapW M.lines_b M.lines_a c)])).2 : WithTop Int)
              rw [hdist, hd2, hvw, hw, ← WithTop.coe_add, ← WithTop.coe_min,
                best1_append_last]
              by_cases hcmp : (best1 x rest).2 ≤
                  nodeVal M.lines_b M.lines_a q + gapW M.lines_b M.lines_a c
              · rw [if_pos hcmp, min_eq_left hcmp]
              · rw [if_neg hcmp, min_eq_right (le_of_not_le hcmp)]
            · show (visitNode M st q).parent c =
                (best1 x (rest ++ [(q, nodeVal M.lines_b M.lines_a q +
                  gapW M.lines_b M.lines_a c)])).1
              rw [hpar, hd2, hvw, hw, ← WithTop.coe_add, best1_append_last]
              by_cases hlt : nodeVal M.lines_b M.lines_a q +
                  gapW M.lines_b M.lines_a c < (best1 x rest).2
              · rw [if_pos (WithTop.coe_lt_coe.mpr hlt),
                  if_neg (not_le.mpr hlt)]
              · rw [if_neg (fun h => hlt (WithTop.coe_lt_coe.mp h)),
                  if_pos (not_lt.mp hlt)]
                exact hp3
        · rw [if_neg hadj, Prod.mk.injEq] at hpair
          obtain ⟨hdist, hpar⟩ := hpair
          have hq_not_pred : q ∉ predList c := by
            intro h
            exact hadj ((mem_predList hcOk).mp h).2
          have hpp : ppairs M.lines_b M.lines_a c (done ++ [q]) =
              ppairs M.lines_b M.lines_a c done := by
            rw [ppairs, ppairs, filter_append_last_not_mem hq_not_pred]
          rw [hpp, hdist, hpar]
          exact hinv.1 c hcOk
      · intro c hcNOk
        have hc_not_adj : c ∉ M.adjacency q :=
          fun h => hcNOk (adjacency_bounds hqOk h)
        have hpair := visitNode_eq M st q c
        rw [if_neg hc_not_adj, Prod.mk.injEq] at hpair
        obtain ⟨hdist, hpar⟩ := hpair
        rw [hdist, hpar]
        exact hinv.2 c hcNOk
    have hsplit2 : sweepSources M = (done ++ [q]) ++ todo2 := by
      rw [hsplit, List.append_assoc]
      rfl
    have hmain := ih (done ++ [q]) (visitNode M st q) hsplit2 hinv2
    rw [List.append_assoc] at hmain
    simpa using hmain

lemma charInv_init {M : AlignmentMatrix} (hb : M.lines_b ≠ [])
    (ha : M.lines_a ≠ []) {st0 : MatrixState}
    (h0 : initRoots M initState = some st0) :
    CharInv M st0 [] := by
  have hst0 : st0 =
      ⟨fun q => if q ∈ root_adjacency then 0 else ⊤, fun _ => origin⟩ := by
    have h2 := initRoots_eq hb ha
    rw [h0] at h2
    exact Option.some.inj h2
  subst hst0
  constructor
  · intro c hcOk
    rw [show ppairs M.lines_b M.lines_a c [] = [] by simp [ppairs]]
    exact ⟨rfl, rfl⟩
  · intro c hcNOk
    have hcr : c ∉ root_adjacency := by
      intro hr
      apply hcNOk
      have hm : 1 ≤ M.lines_b.length := List.length_pos.mpr hb
      have hn : 1 ≤ M.lines_a.length := List.length_pos.mpr ha
      simp only [root_adjacency, List.mem_cons, List.not_mem_nil, or_false] at hr
      rcases hr with rfl | rfl | rfl <;> rw [Ok_mk] <;>
        simp only [AlignmentMatrix.xlen, AlignmentMatrix.ylen] <;> omega
    exact ⟨by simp [hcr], rfl⟩

/-- The final state of the sweep in closed form: every materialized node's
relaxed distance is `nodeVal`, and every node's predecessor is
`pureParent`. -/
lemma sweep_char (lines_b lines_a : List String) (hb : lines_b ≠ [])
    (ha : lines_a ≠ []) {st0 : MatrixState}
    (h0 : initRoots (AlignmentMatrix.mk lines_b lines_a) initState = some st0) :
    (∀ c, Ok (AlignmentMatrix.mk lines_b lines_a) c →
        (sweep (AlignmentMatrix.mk lines_b lines_a) st0).dist c =
          ((nodeVal lines_b lines_a c : Int) : WithTop Int)) ∧
      (∀ c, (sweep (AlignmentMatrix.mk lines_b lines_a) st0).parent c =
        pureParent lines_b lines_a c) := by
  set M := AlignmentMatrix.mk lines_b lines_a with hM
  have hMb : M.lines_b = lines_b := rfl
  have hMa : M.lines_a = lines_a := rfl
  have hinv0 : CharInv M st0 [] := charInv_init hb ha h0
  have hmain := char_step M (sweepSources M) [] st0 rfl hinv0
  rw [List.nil_append] at hmain
  have hfull : ∀ c, Ok M c →
      (predList c).filter (· ∈ sweepSources M) = predList c := by
    intro c hcOk
    rw [List.filter_eq_self]
    intro p hp
    have hOkp := ((mem_predList hcOk).mp hp).1
    simp [mem_sweepSources.mpr hOkp]
  constructor
  · intro c hcOk
    obtain ⟨hd, -⟩ := hmain.1 c hcOk
    rw [hMb, hMa] at hd
    show ((sweepSources M).foldl (visitNode M) st0).dist c = _
    rw [hd]
    by_cases hroot : c ∈ root_adjacency
    · rw [show ppairs lines_b lines_a c (sweepSources M) = [] by
        simp [ppairs, predList_root hroot]]
      show (if c ∈ root_adjacency then (0 : WithTop Int) else ⊤) = _
      rw [if_pos hroot]
      simp [nodeVal, hroot]
    · obtain ⟨x, rest, hmap, hval⟩ := bellman lines_b lines_a c hcOk hroot
      rw [show ppairs lines_b lines_a c (sweepSources M) = x :: rest by
        rw [ppairs, hfull c hcOk]; exact hmap]
      show ((best1 x rest).2 : WithTop Int) = _
      rw [hval]
  · intro c
    by_cases hcOk : Ok M c
    · obtain ⟨-, hp⟩ := hmain.1 c hcOk
      rw [hMb, hMa] at hp
      have hguard : c.x < lines_b.length * 2 + 1 ∧
          c.y < lines_a.length * 2 + 1 ∧ ¬(c.x % 2 = 0 ∧ c.y % 2 = 0) := hcOk
      show ((sweepSources M).foldl (visitNode M) st0).parent c = _
      rw [hp]
      by_cases hroot : c ∈ root_adjacency
      · rw [show ppairs lines_b lines_a c (sweepSources M) = [] by
          simp [ppairs, predList_root hroot]]
        show origin = pureParent lines_b lines_a c
        simp only [pureParent]
        rw [if_pos hguard, predList_root hroot]
        rfl
      · obtain ⟨x, rest, hmap, hval⟩ := bellman lines_b lines_a c hcOk hroot
        rw [show ppairs lines_b lines_a c (sweepSources M) = x :: rest by
          rw [ppairs, hfull c hcOk]; exact hmap]
        show (best1 x rest).1 = pureParent lines_b lines_a c
        simp only [pureParent]
        rw [if_pos hguard, hmap]
    · obtain ⟨-, hp⟩ := hmain.2 c hcOk
      have hng : ¬(c.x < lines_b.length * 2 + 1 ∧
          c.y < lines_a.length * 2 + 1 ∧ ¬(c.x % 2 = 0 ∧ c.y % 2 = 0)) :=
        fun h => hcOk h
      show ((sweepSources M).foldl (visitNode M) st0).parent c = _
      rw [hp]
      simp only [pureParent]
      rw [if_neg hng]

/-! ### Mirror symmetry of the closed forms -/

lemma swapP_swapP (p : Point) : swapP (swapP p) = p := rfl

lemma swapP_origin : swapP origin = origin := rfl

lemma mem_root_swap (u v : Nat) :
    (⟨v, u⟩ : Point) ∈ root_adjacency ↔ (⟨u, v⟩ : Point) ∈ root_adjacency := by
  simp only [root_adjacency, List.mem_cons, List.not_mem_nil, or_false,
    Point.mk.injEq]
  omega

lemma gapW_swap (b a : List String) (u v : Nat) :
    gapW a b ⟨v, u⟩ = gapW b a ⟨u, v⟩ := by
  rcases Nat.mod_two_eq_zero_or_one u with hu | hu <;>
    rcases Nat.mod_two_eq_zero_or_one v with hv | hv <;>
    simp [gapW, hu, hv]

lemma nodeVal_swap (b a : List String) (u v : Nat) :
    nodeVal a b ⟨v, u⟩ = nodeVal b a ⟨u, v⟩ := by
  simp only [nodeVal]
  by_cases hroot : (⟨u, v⟩ : Point) ∈ root_adjacency
  · rw [if_pos hroot, if_pos ((mem_root_swap u v).mpr hroot)]
  · rw [if_neg hroot, if_neg (fun h => hroot ((mem_root_swap u v).mp h))]
    show cellF a b (v / 2) (u / 2) + gapW a b ⟨v, u⟩ = _
    rw [cellF_swap, gapW_swap]

lemma best1_three_expand (p1 p2 p3 : Point) (v1 v2 v3 : Int) :
    best1 (p1, v1) [(p2, v2), (p3, v3)] =
      if v1 ≤ (if v2 ≤ v3 then v2 else v3) then (p1, v1)
      else if v2 ≤ v3 then (p2, v2) else (p3, v3) := by
  simp only [best1]
  rw [apply_ite Prod.snd]

lemma best1_three_fst (p1 p2 p3 : Point) (v1 v2 v3 : Int) :
    (best1 (p1, v1) [(p2, v2), (p3, v3)]).1 =
      if v1 ≤ min v2 v3 then p1 else if v2 ≤ v3 then p2 else p3 := by
  rw [best1_three_expand, ← min_def, apply_ite Prod.fst, apply_ite Prod.fst]

/-- The final predecessor choice commutes with swapping the inputs: the
tie between the delete and insert siblings of a cell never decides the
parent, by `cellX`. -/
lemma pureParent_swap (b a : List String) (cx cy : Nat) :
    pureParent a b ⟨cy, cx⟩ = swapP (pureParent b a ⟨cx, cy⟩) := by
  simp only [pureParent]
  by_cases hg : cx < b.length * 2 + 1 ∧ cy < a.length * 2 + 1 ∧
      ¬(cx % 2 = 0 ∧ cy % 2 = 0)
  · rw [if_pos (show (⟨cy, cx⟩ : Point).x < a.length * 2 + 1 ∧
        (⟨cy, cx⟩ : Point).y < b.length * 2 + 1 ∧
        ¬((⟨cy, cx⟩ : Point).x % 2 = 0 ∧ (⟨cy, cx⟩ : Point).y % 2 = 0) from
        ⟨hg.2.1, hg.1, fun h => hg.2.2 ⟨h.2, h.1⟩⟩),
      if_pos (show (⟨cx, cy⟩ : Point).x < b.length * 2 + 1 ∧
        (⟨cx, cy⟩ : Point).y < a.length * 2 + 1 ∧
        ¬((⟨cx, cy⟩ : Point).x % 2 = 0 ∧ (⟨cx, cy⟩ : Point).y % 2 = 0) from hg)]
    simp only [predList]
    show (match (cellEntries (cy / 2) (cx / 2)).map
        (fun p => (p, nodeVal a b p + gapW a b ⟨cy, cx⟩)) with
      | [] => origin
      | x :: rest => (best1 x rest).1) = _
    rw [gapW_swap]
    generalize gapW b a (⟨cx, cy⟩ : Point) = w
    generalize hK : cx / 2 = K
    generalize hL : cy / 2 = L
    rcases K with _ | k <;> rcases L with _ | l <;>
      simp only [cellEntries, List.map]
    · rfl
    · rfl
    · rfl
    · rw [nodeVal_swap b a (2 * k + 1) (2 * l + 1),
        nodeVal_swap b a (2 * k + 2) (2 * l + 1),
        nodeVal_swap b a (2 * k + 1) (2 * l + 2)]
      show (best1 (⟨2 * l + 1, 2 * k + 1⟩, nodeVal b a ⟨2 * k + 1, 2 * l + 1⟩ + w)
          [(⟨2 * l + 1, 2 * k + 2⟩, nodeVal b a ⟨2 * k + 2, 2 * l + 1⟩ + w),
            (⟨2 * l + 2, 2 * k + 1⟩, nodeVal b a ⟨2 * k + 1, 2 * l + 2⟩ + w)]).1 =
        swapP (best1 (⟨2 * k + 1, 2 * l + 1⟩, nodeVal b a ⟨2 * k + 1, 2 * l + 1⟩ + w)
          [(⟨2 * k + 1, 2 * l + 2⟩, nodeVal b a ⟨2 * k + 1, 2 * l + 2⟩ + w),
            (⟨2 * k + 2, 2 * l + 1⟩, nodeVal b a ⟨2 * k + 2, 2 * l + 1⟩ + w)]).1
      rw [best1_three_fst, best1_three_fst, nodeVal_S, nodeVal_D, nodeVal_E]
      have hX := cellX b a k l
      rw [apply_ite swapP, apply_ite swapP]
      show _ = if _ then (⟨2 * l + 1, 2 * k + 1⟩ : Point)
        else if cellF b a k (l + 1) + wB b k + w ≤ cellF b a (k + 1) l + wB a l + w
        then (⟨2 * l + 2, 2 * k + 1⟩ : Point) else ⟨2 * l + 1, 2 * k + 2⟩
      rw [min_comm (cellF b a (k + 1) l + wB a l + w)
        (cellF b a k (l + 1) + wB b k + w)]
      by_cases hs : cellF b a k l + w ≤
          min (cellF b a k (l + 1) + wB b k + w) (cellF b a (k + 1) l + wB a l + w)
      · rw [if_pos hs, if_pos hs]
      · rw [if_neg hs, if_neg hs]
        by_cases hde : cellF b a k (l + 1) + wB b k + w ≤
            cellF b a (k + 1) l + wB a l + w
        · by_cases hed : cellF b a (k + 1) l + wB a l + w ≤
              cellF b a k (l + 1) + wB b k + w
          · exfalso
            omega
          · rw [if_neg hed, if_pos hde]
        · rw [if_pos (by omega), if_neg hde]
  · rw [if_neg (fun h => hg ⟨h.2.1, h.1, fun h2 => h.2.2 ⟨h2.2, h2.1⟩⟩),
      if_neg (fun h => hg h)]
    rfl

/-- The backward walk commutes with the coordinate swap when the parent
fields do. -/
lemma walkAux_swap {st st2 : MatrixState}
    (hpar : ∀ p : Point, st2.parent (swapP p) = swapP (st.parent p)) :
    ∀ (fuel : Nat) (pos : Point),
      walkAux st2 fuel (swapP pos) = (walkAux st fuel pos).map (List.map swapP) := by
  intro fuel
  induction fuel with
  | zero =>
    intro pos
    by_cases h : pos.x > 0 ∨ pos.y > 0
    · have h2 : (swapP pos).x > 0 ∨ (swapP pos).y > 0 := Or.symm h
      simp [walkAux, h, h2]
    · have h2 : ¬((swapP pos).x > 0 ∨ (swapP pos).y > 0) := fun hh => h (Or.symm hh)
      simp [walkAux, h, h2]
  | succ fuel ih =>
    intro pos
    by_cases h : pos.x > 0 ∨ pos.y > 0
    · have h2 : (swapP pos).x > 0 ∨ (swapP pos).y > 0 := Or.symm h
      simp only [walkAux, if_pos h, if_pos h2]
      rw [hpar pos, ih (st.parent pos)]
      cases walkAux st fuel (st.parent pos) <;> simp
    · have h2 : ¬((swapP pos).x > 0 ∨ (swapP pos).y > 0) := fun hh => h (Or.symm hh)
      simp [walkAux, h, h2]

/-- The body of `shortest_path` after a successful root initialization. -/
lemma shortest_path_eq (M : AlignmentMatrix) {st0 : MatrixState}
    (h0 : initRoots M initState = some st0) :
    M.shortest_path =
      walk_path (sweep M st0) (M.xlen * M.ylen)
        (match chooseExit ((sweep M st0).dist ⟨M.xlen - 2, M.ylen - 1⟩)
            ((sweep M st0).dist ⟨M.xlen - 1, M.ylen - 2⟩)
            ((sweep M st0).dist ⟨M.xlen - 2, M.ylen - 2⟩) with
          | ExitKind.delLast => ⟨M.xlen - 2, M.ylen - 1⟩
          | ExitKind.insLast => ⟨M.xlen - 1, M.ylen - 2⟩
          | ExitKind.subLast => ⟨M.xlen - 2, M.ylen - 2⟩) := by
  rw [AlignmentMatrix.shortest_path, h0]
  rfl

/-- The exit selection commutes with swapping the two gap-distance
arguments, given the tie exclusion between the delete and insert exits. -/
lemma exit_swap (dx dy dxy : Int) (hX : ¬(dx < dxy ∧ dy < dxy))
    (P Q R P2 Q2 R2 : Point) (hP : P2 = swapP Q) (hQ : Q2 = swapP P)
    (hR : R2 = swapP R) :
    (match chooseExit ((dy : Int) : WithTop Int) ((dx : Int) : WithTop Int)
        ((dxy : Int) : WithTop Int) with
      | ExitKind.delLast => P2
      | ExitKind.insLast => Q2
      | ExitKind.subLast => R2) =
    swapP (match chooseExit ((dx : Int) : WithTop Int) ((dy : Int) : WithTop Int)
        ((dxy : Int) : WithTop Int) with
      | ExitKind.delLast => P
      | ExitKind.insLast => Q
      | ExitKind.subLast => R) := by
  subst hP hQ hR
  unfold chooseExit
  simp only [WithTop.coe_lt_coe]
  split_ifs <;> first | rfl | (exfalso; omega)

/-- `shortest_path` commutes with swapping the inputs: the walked path of
the transposed problem is the pointwise coordinate swap of the original
one. -/
lemma shortest_path_swap (lines_b lines_a : List String) (hb : lines_b ≠ [])
    (ha : lines_a ≠ []) :
    (AlignmentMatrix.mk lines_a lines_b).shortest_path =
      ((AlignmentMatrix.mk lines_b lines_a).shortest_path).map
        (List.map swapP) := by
  obtain ⟨st0, h0⟩ : ∃ st0,
      initRoots (AlignmentMatrix.mk lines_b lines_a) initState = some st0 :=
    ⟨_, initRoots_eq hb ha⟩
  obtain ⟨st02, h02⟩ : ∃ st02,
      initRoots (AlignmentMatrix.mk lines_a lines_b) initState = some st02 :=
    ⟨_, initRoots_eq ha hb⟩
  obtain ⟨hdist, hpar⟩ := sweep_char lines_b lines_a hb ha h0
  obtain ⟨hdist2, hpar2⟩ := sweep_char lines_a lines_b ha hb h02
  have hparall : ∀ p : Point,
      (sweep (AlignmentMatrix.mk lines_a lines_b) st02).parent (swapP p) =
        swapP ((sweep (AlignmentMatrix.mk lines_b lines_a) st0).parent p) := by
    intro p
    obtain ⟨px, py⟩ := p
    rw [hpar2, hpar]
    exact pureParent_swap lines_b lines_a px py
  obtain ⟨m1, hm1⟩ : ∃ m1, lines_b.length = m1 + 1 :=
    ⟨lines_b.length - 1, by have := List.length_pos.mpr hb; omega⟩
  obtain ⟨n1, hn1⟩ : ∃ n1, lines_a.length = n1 + 1 :=
    ⟨lines_a.length - 1, by have := List.length_pos.mpr ha; omega⟩
  have hxlen : (AlignmentMatrix.mk lines_b lines_a).xlen = 2 * m1 + 3 := by
    show lines_b.length * 2 + 1 = 2 * m1 + 3
    omega
  have hylen : (AlignmentMatrix.mk lines_b lines_a).ylen = 2 * n1 + 3 := by
    show lines_a.length * 2 + 1 = 2 * n1 + 3
    omega
  have hxlen2 : (AlignmentMatrix.mk lines_a lines_b).xlen = 2 * n1 + 3 := by
    show lines_a.length * 2 + 1 = 2 * n1 + 3
    omega
  have hylen2 : (AlignmentMatrix.mk lines_a lines_b).ylen = 2 * m1 + 3 := by
    show lines_b.length * 2 + 1 = 2 * m1 + 3
    omega
  rw [shortest_path_eq _ h02, shortest_path_eq _ h0, hxlen, hylen, hxlen2, hylen2]
  rw [show (⟨2 * m1 + 3 - 2, 2 * n1 + 3 - 1⟩ : Point) = ⟨2 * m1 + 1, 2 * n1 + 2⟩
      by rw [Point.mk.injEq]; omega,
    show (⟨2 * m1 + 3 - 1, 2 * n1 + 3 - 2⟩ : Point) = ⟨2 * m1 + 2, 2 * n1 + 1⟩
      by rw [Point.mk.injEq]; omega,
    show (⟨2 * m1 + 3 - 2, 2 * n1 + 3 - 2⟩ : Point) = ⟨2 * m1 + 1, 2 * n1 + 1⟩
      by rw [Point.mk.injEq]; omega,
    show (⟨2 * n1 + 3 - 2, 2 * m1 + 3 - 1⟩ : Point) = ⟨2 * n1 + 1, 2 * m1 + 2⟩
      by rw [Point.mk.injEq]; omega,
    show (⟨2 * n1 + 3 - 1, 2 * m1 + 3 - 2⟩ : Point) = ⟨2 * n1 + 2, 2 * m1 + 1⟩
      by rw [Point.mk.injEq]; omega,
    show (⟨2 * n1 + 3 - 2, 2 * m1 + 3 - 2⟩ : Point) = ⟨2 * n1 + 1, 2 * m1 + 1⟩
      by rw [Point.mk.injEq]; omega]
  have hOkx : Ok (AlignmentMatrix.mk lines_b lines_a) ⟨2 * m1 + 1, 2 * n1 + 2⟩ := by
    rw [Ok_mk, hxlen, hylen]; omega
  have hOky : Ok (AlignmentMatrix.mk lines_b lines_a) ⟨2 * m1 + 2, 2 * n1 + 1⟩ := by
    rw [Ok_mk, hxlen, hylen]; omega
  have hOkxy : Ok (AlignmentMatrix.mk lines_b lines_a) ⟨2 * m1 + 1, 2 * n1 + 1⟩ := by
    rw [Ok_mk, hxlen, hylen]; omega
  have hOkx2 : Ok (AlignmentMatrix.mk lines_a lines_b) ⟨2 * n1 + 1, 2 * m1 + 2⟩ := by
    rw [Ok_mk, hxlen2, hylen2]; omega
  have hOky2 : Ok (AlignmentMatrix.mk lines_a lines_b) ⟨2 * n1 + 2, 2 * m1 + 1⟩ := by
    rw [Ok_mk, hxlen2, hylen2]; omega
  have hOkxy2 : Ok (AlignmentMatrix.mk lines_a lines_b) ⟨2 * n1 + 1, 2 * m1 + 1⟩ := by
    rw [Ok_mk, hxlen2, hylen2]; omega
  rw [hdist _ hOkx, hdist _ hOky, hdist _ hOkxy,
    hdist2 _ hOkx2, hdist2 _ hOky2, hdist2 _ hOkxy2]
  rw [nodeVal_swap lines_b lines_a (2 * m1 + 2) (2 * n1 + 1),
    nodeVal_swap lines_b lines_a (2 * m1 + 1) (2 * n1 + 2),
    nodeVal_swap lines_b lines_a (2 * m1 + 1) (2 * n1 + 1)]
  rw [nodeVal_S lines_b lines_a m1 n1,
    show (⟨2 * m1 + 1, 2 * n1 + 2⟩ : Point) = ⟨2 * m1 + 1, 2 * n1 + 2⟩ from rfl,
    nodeVal_D lines_b lines_a m1 n1, nodeVal_E lines_b lines_a m1 n1]
  have hX := cellX lines_b lines_a m1 n1
  rw [exit_swap (cellF lines_b lines_a m1 (n1 + 1) + wB lines_b m1)
    (cellF lines_b lines_a (m1 + 1) n1 + wB lines_a n1)
    (cellF lines_b lines_a m1 n1) (by omega)
    ⟨2 * m1 + 1, 2 * n1 + 2⟩ ⟨2 * m1 + 2, 2 * n1 + 1⟩ ⟨2 * m1 + 1, 2 * n1 + 1⟩
    ⟨2 * n1 + 1, 2 * m1 + 2⟩ ⟨2 * n1 + 2, 2 * m1 + 1⟩ ⟨2 * n1 + 1, 2 * m1 + 1⟩
    rfl rfl rfl]
  rw [show (2 * n1 + 3) * (2 * m1 + 3) = (2 * m1 + 3) * (2 * n1 + 3) from
    Nat.mul_comm _ _]
  rw [walk_path, walk_path, walkAux_swap hparall]
  cases walkAux (sweep (AlignmentMatrix.mk lines_b lines_a) st0)
      ((2 * m1 + 3) * (2 * n1 + 3))
      (match chooseExit
          ((cellF lines_b lines_a m1 (n1 + 1) + wB lines_b m1 : Int) : WithTop Int)
          ((cellF lines_b lines_a (m1 + 1) n1 + wB lines_a n1 : Int) : WithTop Int)
          ((cellF lines_b lines_a m1 n1 : Int) : WithTop Int) with
        | ExitKind.delLast => (⟨2 * m1 + 1, 2 * n1 + 2⟩ : Point)
        | ExitKind.insLast => ⟨2 * m1 + 2, 2 * n1 + 1⟩
        | ExitKind.subLast => ⟨2 * m1 + 1, 2 * n1 + 1⟩) <;>
    simp [List.map_reverse]

lemma pairFn_swap (lines_b lines_a : List String) (p : Point) :
    pairFn lines_a lines_b (swapP p) = Prod.swap (pairFn lines_b lines_a p) := rfl

/-- `align` fails whenever either side is empty (the root initialization
raises), in both argument orders. -/
lemma align_none_of_empty {lines_b lines_a : List String}
    (h : lines_b = [] ∨ lines_a = []) : align lines_b lines_a = none := by
  have hsp : (AlignmentMatrix.mk lines_b lines_a).shortest_path = none := by
    rw [AlignmentMatrix.shortest_path, initRoots_none h]
    rfl
  simp [align, hsp]

/-! ## Claim theorems -/

/-- C9: when `align` is called with both input sequences empty, the call
fails with an error signalled to the caller (the root-initialization access
`line_matrix[0][1]` raises `IndexError`, modelled as `none`) and no pairing
is returned. -/
theorem align_empty_empty_fails : align [] [] = none := by decide

/-- C1 counterexample: on `before = []`, `after = ["x"]` the code does not
return `[(absent, "x")]`; the root-initialization access
`line_matrix[1][0]` raises `IndexError`, so the call fails. -/
theorem align_empty_before_counterexample :
    align [] ["x"] = none ∧ align [] ["x"] ≠ some [(none, some "x")] := by decide

/-- C1 amended: for every input where exactly one of the two line sequences
is empty, `align` fails with an index error during root initialization and
returns no pairing at all. -/
theorem align_one_side_empty_eq_none (lines_b lines_a : List String)
    (h : (lines_b = [] ∧ lines_a ≠ []) ∨ (lines_b ≠ [] ∧ lines_a = [])) :
    align lines_b lines_a = none := by
  have hnone : initRoots (AlignmentMatrix.mk lines_b lines_a) initState = none :=
    initRoots_none (by tauto)
  rw [align]
  simp only [Option.bind_eq_bind]
  rw [AlignmentMatrix.shortest_path, hnone]
  rfl

/-- C1 witness: the amended claim at `before = ["q"]`, `after = []`. -/
theorem align_one_side_empty_eq_none_witness : align ["q"] [] = none :=
  align_one_side_empty_eq_none ["q"] [] (Or.inr ⟨by decide, rfl⟩)

/-- C2 (code bug evaluated at the failing input): the substitution weight the
code computes for lines `"x"` and `"y"` is `0`, although the character diff
emits `D = 2` non-equal tokens and `K = 2` strict insertion-or-deletion
tokens, so the documented cost `D × ceil(K/2)` is `2` and the lines are not
identical.  The second pass of `AlignmentMatrix.__init__` iterates the
`ndiff` generator already exhausted by the first `sum`, so `operations = 0`
and every substitution weight collapses to `edit_dist * ((0 + 1) // 2) = 0`. -/
theorem substitution_weight_bug :
    subWeight "x" "y" = 0 ∧
    ndTokensNotEqual "x".data "y".data = 2 ∧
    ndInsDel "x".data "y".data = 2 ∧
    (ndTokensNotEqual "x".data "y".data : Int) *
      ((ndInsDel "x".data "y".data + 1) / 2) = 2 ∧
    "x" ≠ "y" ∧
    (AlignmentMatrix.mk ["x"] ["y"]).weight ⟨1, 1⟩ = 0 := by decide

/-- C5 counterexample: on `before = ["x"]`, `after = ["y"]` the root
initialization stores relaxed distance `0` at the delete node `(1,0)` even
though that node's intrinsic weight is `1`: the distance is not initialized
to the node's own weight. -/
theorem initRoots_zero_not_weight :
    (initRoots (AlignmentMatrix.mk ["x"] ["y"]) initState).map
        (fun st => st.dist ⟨1, 0⟩) = some 0 ∧
      (AlignmentMatrix.mk ["x"] ["y"]).weight ⟨1, 0⟩ = 1 := by decide

/-- C5 amended: before the topological sweep, each of the three move nodes
reachable from the origin has its relaxed distance initialized to zero (not
to its intrinsic weight — the first move's weight is never charged), with
the predecessor left at the origin. -/
theorem initRoots_sets_zero (lines_b lines_a : List String)
    (hb : lines_b ≠ []) (ha : lines_a ≠ []) :
    ∃ st, initRoots (AlignmentMatrix.mk lines_b lines_a) initState = some st ∧
      ∀ p ∈ root_adjacency, st.dist p = 0 ∧ st.parent p = origin := by
  refine ⟨_, initRoots_eq hb ha, ?_⟩
  intro p hp
  exact ⟨by simp [hp], rfl⟩

/-- C5 witness: the amended claim at `before = ["ab"]`, `after = ["c"]`. -/
theorem initRoots_sets_zero_witness :
    ∃ st, initRoots (AlignmentMatrix.mk ["ab"] ["c"]) initState = some st ∧
      ∀ p ∈ root_adjacency, st.dist p = 0 ∧ st.parent p = origin :=
  initRoots_sets_zero ["ab"] ["c"] (by decide) (by decide)

/-- C6: the terminal node is selected by the exact tie-break of
`shortest_path` — delete-last only if strictly smaller than both others,
else insert-last only if strictly smaller than substitute-last, else
(including all ties) substitute-last — and on `before = ["x"]`,
`after = ["y"]` the output is the single substitution pair
`[("x", "y")]`, not two separate gap pairs. -/
theorem chooseExit_tie_break_and_scenario :
    (∀ dx dy dxy : WithTop Int,
      (chooseExit dx dy dxy = ExitKind.delLast ↔ dx < dy ∧ dx < dxy) ∧
      (chooseExit dx dy dxy = ExitKind.insLast ↔ ¬(dx < dy ∧ dx < dxy) ∧ dy < dxy) ∧
      (chooseExit dx dy dxy = ExitKind.subLast ↔
        ¬(dx < dy ∧ dx < dxy) ∧ ¬(dy < dxy))) ∧
    align ["x"] ["y"] = some [(some "x", some "y")] := by
  constructor
  · intro dx dy dxy
    unfold chooseExit
    split_ifs with h1 h2 <;> simp_all
  · decide

/-- C7: `align(["foo","bar"], ["foo","baz"])` returns exactly
`[("foo","foo"), ("bar","baz")]`. -/
theorem align_concrete_scenario :
    align ["foo", "bar"] ["foo", "baz"] =
      some [(some "foo", some "foo"), (some "bar", some "baz")] := by decide

/-- C3 counterexample: `before = ["x"]`, `after = []` is a valid input under
the claim's precondition (not both empty), yet `align` fails and index `0`
of `before` appears in no output pair. -/
theorem align_coverage_counterexample :
    align ["x"] [] = none ∧
      ¬∃ pairs, align ["x"] [] = some pairs ∧
        ∃ pr ∈ pairs, pr.1 = some "x" := by
  have h : align ["x"] [] = none := by decide
  refine ⟨h, ?_⟩
  rintro ⟨pairs, hp, -⟩
  rw [h] at hp
  exact Option.noConfusion hp

/-- C3 amended: for every input with both sides nonempty, `align` succeeds
and every index of `before` and of `after` appears in exactly one output
pair (the path's delete/substitute moves consume the before-indices
`0..m-1` in order, each once, likewise the after-indices), and every output
pair has at least one side present. -/
theorem align_coverage (lines_b lines_a : List String)
    (hb : lines_b ≠ []) (ha : lines_a ≠ []) :
    ∃ path pairs,
      (AlignmentMatrix.mk lines_b lines_a).shortest_path = some path ∧
      align lines_b lines_a = some pairs ∧
      pairs = path.map (pairFn lines_b lines_a) ∧
      idxB path = List.range lines_b.length ∧
      idxA path = List.range lines_a.length ∧
      ∀ pr ∈ pairs, pr.1.isSome ∨ pr.2.isSome := by
  obtain ⟨path, hsp, halign, hbidx, haidx, hok, -, -⟩ :=
    align_master lines_b lines_a hb ha
  refine ⟨path, _, hsp, halign, rfl, hbidx, haidx, ?_⟩
  intro pr hpr
  rcases List.mem_map.mp hpr with ⟨p, hp, rfl⟩
  have hne := hok p hp
  rcases Nat.mod_two_eq_zero_or_one p.x with hpx | hpx <;>
    rcases Nat.mod_two_eq_zero_or_one p.y with hpy | hpy <;>
    simp [pairFn, hpx, hpy] at hne ⊢

/-- C3 witness: the amended claim at `before = ["a"]`, `after = ["b"]`. -/
theorem align_coverage_witness :
    ∃ path pairs,
      (AlignmentMatrix.mk ["a"] ["b"]).shortest_path = some path ∧
      align ["a"] ["b"] = some pairs ∧
      pairs = path.map (pairFn ["a"] ["b"]) ∧
      idxB path = List.range (["a"] : List String).length ∧
      idxA path = List.range (["b"] : List String).length ∧
      ∀ pr ∈ pairs, pr.1.isSome ∨ pr.2.isSome :=
  align_coverage ["a"] ["b"] (by decide) (by decide)

/-- C4: for every input with at least one line on each side, the total cost
of the alignment `align` returns — gap cost (character length) for
one-sided pairs, the program's substitution cost for both-present pairs —
is at most the fully-unaligned baseline, the sum of the lengths of all
lines of both sides. -/
theorem align_cost_le_baseline (lines_b lines_a : List String)
    (hb : lines_b ≠ []) (ha : lines_a ≠ [])
    (pairs : List (Option String × Option String))
    (hpairs : align lines_b lines_a = some pairs) :
    alignmentCost pairs ≤ unalignedCost lines_b lines_a := by
  obtain ⟨path, -, halign, -, -, -, -, hcost⟩ :=
    align_master lines_b lines_a hb ha
  rw [halign] at hpairs
  rw [← Option.some.inj hpairs]
  exact hcost

/-- C4 witness: the cost bound at `before = ["ab"]`, `after = ["xyz"]`. -/
theorem align_cost_le_baseline_witness :
    align ["ab"] ["xyz"] = some [(some "ab", some "xyz")] ∧
      alignmentCost [(some "ab", some "xyz")] ≤ unalignedCost ["ab"] ["xyz"] :=
  ⟨by decide,
    align_cost_le_baseline ["ab"] ["xyz"] (by decide) (by decide) _ (by decide)⟩

/-- C10: for every input with at least one line on each side, the backward
walk from the chosen terminal terminates: `walk_path` succeeds (the
predecessor chain reaches the origin within the fuel bound), and the
decoded path is strictly monotone in both coordinates with strictly
increasing coordinate sums, so it visits each node at most once. -/
theorem walk_path_terminates (lines_b lines_a : List String)
    (hb : lines_b ≠ []) (ha : lines_a ≠ []) :
    ∃ path,
      (AlignmentMatrix.mk lines_b lines_a).shortest_path = some path ∧
      path.Chain' (fun p q => p.x ≤ q.x ∧ p.y ≤ q.y ∧ p.x + p.y < q.x + q.y) ∧
      path.Nodup := by
  obtain ⟨path, hsp, -, -, -, -, hchain, -⟩ := align_master lines_b lines_a hb ha
  refine ⟨path, hsp, hchain, ?_⟩
  have hsums : (path.map (fun p => p.x + p.y)).Chain' (· < ·) := by
    rw [List.chain'_map]
    refine hchain.imp ?_
    intro a b hab
    exact hab.2.2
  have hpw : (path.map (fun p => p.x + p.y)).Pairwise (· < ·) :=
    List.chain'_iff_pairwise.mp hsums
  have : (path.map (fun p => p.x + p.y)).Nodup := hpw.imp Nat.ne_of_lt
  exact this.of_map _

/-- C10 witness: the walk terminates on `before = ["u"]`, `after = ["vw"]`. -/
theorem walk_path_terminates_witness :
    ∃ path,
      (AlignmentMatrix.mk ["u"] ["vw"]).shortest_path = some path ∧
      path.Chain' (fun p q => p.x ≤ q.x ∧ p.y ≤ q.y ∧ p.x + p.y < q.x + q.y) ∧
      path.Nodup :=
  walk_path_terminates ["u"] ["vw"] (by decide) (by decide)

/-- C8: for every input `(before, after)` — including the degenerate
inputs on which the call fails — swapping the two input sequences and
then swapping the two sides of each output pair yields exactly the
output of `align` on the original order: the same pairings, in the same
order, and the same error behaviour.  The first-writer tie-breaks of the
row-major sweep and the exit selection never break this symmetry, because
no cell's delete and insert entries can both strictly beat its substitute
entry. -/
theorem align_swap_symmetric (lines_b lines_a : List String) :
    align lines_a lines_b =
      (align lines_b lines_a).map (fun pairs => pairs.map Prod.swap) := by
  by_cases hb : lines_b = []
  · rw [align_none_of_empty (Or.inl hb), align_none_of_empty (Or.inr hb)]
    rfl
  · by_cases ha : lines_a = []
    · rw [align_none_of_empty (Or.inr ha), align_none_of_empty (Or.inl ha)]
      rfl
    · obtain ⟨path, hsp, hal, -, -, -, -, -⟩ := align_master lines_b lines_a hb ha
      obtain ⟨path2, hsp2, hal2, -, -, -, -, -⟩ := align_master lines_a lines_b ha hb
      have hpath2 : path2 = path.map swapP := by
        have h := shortest_path_swap lines_b lines_a hb ha
        rw [hsp, hsp2] at h
        simpa using h
      rw [hal, hal2, hpath2]
      show some ((path.map swapP).map (pairFn lines_a lines_b)) =
        some ((path.map (pairFn lines_b lines_a)).map Prod.swap)
      refine congrArg some ?_
      rw [List.map_map, List.map_map]
      rfl
